import Mathlib

/-!
# makodistillercmd: directive parsing and the job driver

A shallow embedding of `makodistillercmd.cpp`.

Conventions of the embedding.

* A `U8String` (and a `const char *` C string) is the list of its bytes; for a C string
  these are the bytes before the terminating NUL.  `line + n` is `line.drop n`,
  `U8String(line, n)` is `line.take n`, `line[i]` is `line.getD i NUL` (reading the
  terminator gives NUL).
* `ParamMap` is `std::map<U8String, DistillerParam>`, kept as an association list whose
  keys are pairwise different (`paramMap_keys_nodup`); `find` is `List.lookup`.
* Functions that write through a `DistillerParams &` return the new list next to
  their `bool` result.
* `std::filesystem` is an oracle (`FileSystem`); a throwing `fs::canonical` is
  `none`, and the functions that call it return in `Except Failure`.
* The calls made on the `IDistiller` are recorded, in order, as a list of `EngineCall`.
  Console output is not modelled.
-/

namespace MakoDistillerCmd

abbrev U8String := List Char
abbrev DistillerParam := U8String × U8String
abbrev DistillerParams := List DistillerParam
abbrev ParamMap := List (U8String × DistillerParam)

/-- The string terminator. -/
def NUL : Char := Char.ofNat 0

/-- The table built at the start of `main` (source lines 541-579), in source order. -/
def paramMap : ParamMap :=
  [ ("dcA".toList, ("colorimagecompression".toList, "auto".toList)),
    ("dcd".toList, ("colorimagecompression".toList, "dct".toList)),
    ("dcf".toList, ("colorimagecompression".toList, "flate".toList)),
    ("dcp".toList, ("colorimagecompression".toList, "flatepredict".toList)),
    ("dcl".toList, ("colorjpegquality".toList, "low".toList)),
    ("dcm".toList, ("colorjpegquality".toList, "medium".toList)),
    ("dch".toList, ("colorjpegquality".toList, "high".toList)),
    ("dcu".toList, ("colorjpegquality".toList, "user".toList)),
    ("dcq".toList, ("colorqfactor".toList, "".toList)),
    ("dgA".toList, ("grayimagecompression".toList, "auto".toList)),
    ("dgd".toList, ("grayimagecompression".toList, "dct".toList)),
    ("dgf".toList, ("grayimagecompression".toList, "flate".toList)),
    ("dgp".toList, ("grayimagecompression".toList, "flatepredict".toList)),
    ("dgl".toList, ("grayjpegquality".toList, "low".toList)),
    ("dgm".toList, ("grayjpegquality".toList, "medium".toList)),
    ("dgh".toList, ("grayjpegquality".toList, "high".toList)),
    ("dgu".toList, ("grayjpegquality".toList, "user".toList)),
    ("dgq".toList, ("grayqfactor".toList, "".toList)),
    ("dmf".toList, ("monoimagecompression".toList, "flate".toList)),
    ("dmp".toList, ("monoimagecompression".toList, "flatepredict".toList)),
    ("dmc".toList, ("monoimagecompression".toList, "ccitt".toList)),
    ("dd".toList, ("resolution".toList, "".toList)),
    ("dfe".toList, ("embedfonts".toList, "true".toList)),
    ("dfs".toList, ("subsetfonts".toList, "true".toList)),
    ("dP".toList, ("pdfversion".toList, "".toList)),
    ("dta".toList, ("transfers".toList, "apply".toList)),
    ("dtp".toList, ("transfers".toList, "preserve".toList)),
    ("dtr".toList, ("transfers".toList, "remove".toList)),
    ("dz".toList, ("compresspages".toList, "true".toList)),
    ("fp".toList, ("fontdevice".toList, "".toList)),
    ("idefaultpanosestyle".toList, ("defaultpanosestyle".toList, "".toList)),
    ("ipanosedb".toList, ("panose".toList, "".toList)),
    ("Jedc".toList, ("epilogcommand".toList, "".toList)),
    ("Jedf".toList, ("epilogfile".toList, "".toList)),
    ("Jpdc".toList, ("prologcommand".toList, "".toList)),
    ("Jpdf".toList, ("prologfile".toList, "".toList)),
    ("Pf".toList, ("fontdevice".toList, "".toList)),
    ("Pr".toList, ("resourcedevice".toList, "".toList)) ]

/-- The calls the program makes on the conversion engine (`IDistiller`). -/
inductive EngineCall where
  | setParameter (key value : U8String)
  | removeFont (name : U8String)
  | addFonts (fileNames : List U8String)
  | getFontNames (path : U8String)
  | distill (input output : U8String)
  deriving DecidableEq, Repr

/-- A `std::filesystem` exception (caught in `main` as `std::exception`). -/
inductive Failure where
  | filesystemError
  deriving DecidableEq, Repr

/-- One element delivered by `fs::recursive_directory_iterator`. -/
structure DirEntry where
  isDirectory : Bool
  path : U8String
  filename : U8String
  deriving DecidableEq, Repr

/-- The `std::filesystem` operations the program uses. -/
structure FileSystem where
  isRelative : U8String → Bool
  canonical : U8String → Option U8String
  pathExists : U8String → Bool
  hasParentPath : U8String → Bool
  parentPath : U8String → U8String
  currentPath : U8String
  isDirectory : U8String → Bool
  recursiveDirectoryIterator : U8String → List DirEntry
  preferredSeparator : Char

/-- Source lines 159-169: one `setParameter` per accumulated parameter, in list order. -/
def setDistillerParameters (calls : List EngineCall) (params : DistillerParams) :
    List EngineCall :=
  calls ++ params.map (fun p => EngineCall.setParameter p.1 p.2)

/-- Source lines 171-199. -/
def pushParam (line : U8String) (len need : Nat) (paramMap : ParamMap)
    (params : DistillerParams) : Bool × DistillerParams :=
  if len < need then (false, params)
  else
    match paramMap.lookup (line.take need) with
    | none => (false, params)
    | some param =>
      if param.2.length = 0 then
        (true, params ++ [(param.1, line.drop need)])
      else if len ≠ need then (false, params)
      else (true, params ++ [param])

/-- Source lines 202-220.  The arguments are `c_str()` buffers: a NUL inside the list
ends the string just as the end of the list does. -/
def patternMatch : List Char → List Char → Bool
  | [], str => str.headD NUL == NUL
  | p :: pat, str =>
    if p = NUL then str.headD NUL == NUL
    else if p = '?' then
      match str with
      | [] => false
      | c :: cs => c != NUL && patternMatch pat cs
    else if p = '*' then
      patternMatch pat str ||
        (match str with
        | [] => false
        | c :: cs => c != NUL && patternMatch (p :: pat) cs)
    else
      match str with
      | [] => false
      | c :: cs => p == c && patternMatch pat cs
termination_by pat str => pat.length + str.length

/-- The index of the last occurrence of `c`: `U8String::find_last_of(c)`. -/
def findLastOf (c : Char) : U8String → Option Nat
  | [] => none
  | x :: xs =>
    match findLastOf c xs with
    | some i => some (i + 1)
    | none => if x = c then some 0 else none

/-- The index of the first occurrence of `c`: `U8String::find(c)`. -/
def findFirstOf (c : Char) : U8String → Option Nat
  | [] => none
  | x :: xs => if x = c then some 0 else (findFirstOf c xs).map (· + 1)

/-- Source lines 273-294: the directory walk of `getFileNames`, or the single file. -/
def collectFileNames (fs : FileSystem) (p pattern : U8String) (fileNames : List U8String) :
    List U8String :=
  if fs.isDirectory p then
    (fs.recursiveDirectoryIterator p).foldl
      (fun acc ip =>
        if !ip.isDirectory then
          if patternMatch pattern ip.filename then acc ++ [ip.path] else acc
        else acc)
      fileNames
  else fileNames ++ [p]

/-- Source lines 257-266 and the walk after them: `p` is the directory to search (the
parent of `inPath`, or the current directory), the text of `inPath` after its last
separator is the pattern. -/
def wildcardFileNames (fs : FileSystem) (p inPath : U8String) (fileNames : List U8String) :
    Except Failure (Bool × List U8String) :=
  match fs.canonical p with
  | none => .error Failure.filesystemError
  | some p =>
    let pattern :=
      match findLastOf fs.preferredSeparator inPath with
      | some pos => inPath.drop (pos + 1)
      | none => inPath
    .ok (true, collectFileNames fs p pattern fileNames)

/-- Source lines 232-299 (with `WANT_STD_FILESYSTEM` set, as in the file). -/
def getFileNames (fs : FileSystem) (inPath : U8String) (fileNames : List U8String) :
    Except Failure (Bool × List U8String) :=
  if !fs.pathExists inPath then
    if fs.hasParentPath inPath then
      if !fs.pathExists (fs.parentPath inPath) then .ok (false, fileNames)
      else wildcardFileNames fs (fs.parentPath inPath) inPath fileNames
    else wildcardFileNames fs fs.currentPath inPath fileNames
  else
    match fs.canonical inPath with
    | none => .error Failure.filesystemError
    | some p => .ok (true, collectFileNames fs p ['*'] fileNames)

/-- Source lines 301-336. -/
def pushPathParam (fs : FileSystem) (line : U8String) (len need : Nat) (paramMap : ParamMap)
    (params : DistillerParams) : Except Failure (Bool × DistillerParams) :=
  if len < need then .ok (false, params)
  else
    let fullPath := line.drop need
    match paramMap.lookup (line.take need) with
    | none => .ok (false, params)
    | some param =>
      if fs.isRelative fullPath then
        match fs.canonical fullPath with
        | none => .error Failure.filesystemError
        | some p => .ok (true, params ++ [(param.1, p)])
      else .ok (true, params ++ [(param.1, fullPath)])

/-- Source lines 349-389: one iteration of the loop of `processImageOptions`, at index
`i`, on the pair (`added`, `params`).  A `continue` leaves `added` as it is. -/
def imageOptionsBody (line : U8String) (len : Nat) (paramMap : ParamMap)
    (st : Bool × DistillerParams) (i : Nat) : Bool × DistillerParams :=
  let type := line.take 2
  let c := line.getD i NUL
  if c = 'q' then
    let r1 := pushParam line len 3 paramMap st.2
    if !r1.1 then (st.1, r1.2)
    else
      let r2 := pushParam (type ++ ['u']) 3 3 paramMap r1.2
      if !r2.1 then (st.1, r2.2)
      else
        let r3 := pushParam (type ++ ['d']) 3 3 paramMap r2.2
        (st.1 || r3.1, r3.2)
  else if c = 'l' ∨ c = 'm' ∨ c = 'h' ∨ c = 'u' then
    let r1 := pushParam line 3 3 paramMap st.2
    if !r1.1 then (st.1, r1.2)
    else
      let r3 := pushParam (type ++ ['d']) 3 3 paramMap r1.2
      (st.1 || r3.1, r3.2)
  else
    let r3 := pushParam (type ++ [c]) 3 3 paramMap st.2
    (st.1 || r3.1, r3.2)

/-- Source lines 338-392: `for (i = 2; i < len; i++)`. -/
def processImageOptions (line : U8String) (len : Nat) (paramMap : ParamMap)
    (params : DistillerParams) : Bool × DistillerParams :=
  if len < 2 then (false, params)
  else (List.range' 2 (len - 2)).foldl (imageOptionsBody line len paramMap) (false, params)

/-- Source lines 394-412. -/
def processDistillOptions (line : U8String) (len : Nat) (paramMap : ParamMap)
    (params : DistillerParams) : Bool × DistillerParams :=
  let r1 := pushParam line len 2 paramMap params
  if r1.1 then (true, r1.2)
  else
    let r2 := processImageOptions line len paramMap r1.2
    if r2.1 then (true, r2.2)
    else pushParam line len len paramMap r2.2

/-- Source lines 414-460.  The result is (`bool`, `params`, engine calls so far); the
`names` that `getFontNames` fills are only printed and are not kept. -/
def processFontOptions (fs : FileSystem) (line : U8String) (len : Nat) (paramMap : ParamMap)
    (params : DistillerParams) (calls : List EngineCall) :
    Except Failure (Bool × DistillerParams × List EngineCall) :=
  let c := line.getD 1 NUL
  if c = 'p' then
    match pushPathParam fs line len 2 paramMap params with
    | .error e => .error e
    | .ok r => .ok (r.1, r.2, calls)
  else if c = 'r' then
    .ok (true, [], setDistillerParameters calls params ++ [EngineCall.removeFont (line.drop 2)])
  else if c = 'a' then
    match getFileNames fs (line.drop 2) [] with
    | .error e => .error e
    | .ok r => .ok (true, [], setDistillerParameters calls params ++ [EngineCall.addFonts r.2])
  else if c = 'f' then
    .ok (true, params, calls ++ [EngineCall.getFontNames (line.drop 2)])
  else .ok (false, params, calls)

/-- Source lines 462-469. -/
def processPrologEpilogOptions (fs : FileSystem) (line : U8String) (len : Nat)
    (paramMap : ParamMap) (params : DistillerParams) : Except Failure (Bool × DistillerParams) :=
  if line.getD 3 NUL = 'f' then pushPathParam fs line len 4 paramMap params
  else .ok (pushParam line len 4 paramMap params)

/-- The tokens `std::getline(ss, token, ';')` delivers until it fails: the pieces between
semicolons, without a last empty piece.  `acc` is the current token, reversed. -/
def getlineTokens : List Char → List Char → List U8String
  | [], acc => if acc = [] then [] else [acc.reverse]
  | c :: cs, acc => if c = ';' then acc.reverse :: getlineTokens cs [] else getlineTokens cs (c :: acc)

/-- Source lines 480-504: the body of the `while` loop of `processExtraOptions` for
one `token`, on the pair (`added`, `params`); `first` is `line[0]`. -/
def extraOptionsBody (fs : FileSystem) (first : Char) (paramMap : ParamMap)
    (st : Bool × DistillerParams) (token : U8String) : Except Failure (Bool × DistillerParams) :=
  match findFirstOf '=' token with
  | none => .ok st
  | some pos =>
    let param := first :: token.eraseIdx pos
    let simple :=
      let r := pushParam param param.length (pos + 1) paramMap st.2
      (st.1 || r.1, r.2)
    if "ipanosedb".toList.isPrefixOf param then
      match pushPathParam fs param param.length (pos + 1) paramMap st.2 with
      | .error e => .error e
      | .ok r => if r.1 then .ok (true, r.2) else .ok simple
    else .ok simple

/-- Source lines 471-507. -/
def processExtraOptions (fs : FileSystem) (line : U8String) (_len : Nat) (paramMap : ParamMap)
    (params : DistillerParams) : Except Failure (Bool × DistillerParams) :=
  (getlineTokens (line.drop 1) []).foldlM (extraOptionsBody fs (line.headD NUL) paramMap)
    (false, params)

/-- The variables of `main` that outlive one line of the argument file, and the engine
calls made so far. -/
structure DriverState where
  distillerParams : DistillerParams
  outputFilePath : U8String
  calls : List EngineCall
  deriving DecidableEq, Repr

/-- Source lines 612-656: the `switch (*pline)` on a directive; `pline` is the line
after its `-` and `len` its length. -/
def dispatchDirective (fs : FileSystem) (paramMap : ParamMap) (pline : U8String) (len : Nat)
    (st : DriverState) : Except Failure DriverState :=
  let c := pline.headD NUL
  if c = 'd' then
    .ok { st with distillerParams := (processDistillOptions pline len paramMap st.distillerParams).2 }
  else if c = 'f' then
    match processFontOptions fs pline len paramMap st.distillerParams st.calls with
    | .error e => .error e
    | .ok r => .ok { st with distillerParams := r.2.1, calls := r.2.2 }
  else if c = 'i' then
    match processExtraOptions fs pline len paramMap st.distillerParams with
    | .error e => .error e
    | .ok r => .ok { st with distillerParams := r.2 }
  else if c = 'J' then
    match processPrologEpilogOptions fs pline len paramMap st.distillerParams with
    | .error e => .error e
    | .ok r => .ok { st with distillerParams := r.2 }
  else if c = 'P' then
    match pushPathParam fs pline len 2 paramMap st.distillerParams with
    | .error e => .error e
    | .ok r => .ok { st with distillerParams := r.2 }
  else if c = 'o' then
    .ok { st with outputFilePath := pline.drop 1 }
  else .ok st

/-- Source lines 672-690: the `else` branch, a conversion of the input file `line`. -/
def convert (line : U8String) (st : DriverState) : DriverState :=
  let inputFilePath := line
  let outputFilePath :=
    if st.outputFilePath.length = 0 then inputFilePath ++ ".pdf".toList else st.outputFilePath
  { distillerParams := st.distillerParams,
    outputFilePath := outputFilePath,
    calls := setDistillerParameters st.calls st.distillerParams ++
      [EngineCall.distill inputFilePath outputFilePath] }

/-- Source lines 604-691: the body of the `while` loop of `main` for one `line`. -/
def mainLine (fs : FileSystem) (paramMap : ParamMap) (line : U8String) (st : DriverState) :
    Except Failure DriverState :=
  if line = [] then .ok st
  else if 1 < line.length ∧ line.headD NUL = '-' then
    dispatchDirective fs paramMap (line.drop 1) (line.length - 1) st
  else .ok (convert line st)

/-- Source lines 602-715: the loop over the lines of the argument file, with the final
state and the exit code.  `getline` into `char line[1024]` fails on a line of 1024 or
more bytes, which ends the loop; a filesystem exception ends the run with code 1. -/
def mainLoop (fs : FileSystem) (paramMap : ParamMap) : List U8String → DriverState →
    DriverState × Nat
  | [], st => (st, 0)
  | line :: rest, st =>
    if 1024 ≤ line.length then (st, 0)
    else
      match mainLine fs paramMap line st with
      | .error _ => (st, 1)
      | .ok st' => mainLoop fs paramMap rest st'

/-- The state of `main` when the loop starts (source lines 582-585). -/
def initialState : DriverState :=
  { distillerParams := [], outputFilePath := [], calls := [] }

/-- The run of `main` on an argument file given as its lines. -/
def runMain (fs : FileSystem) (argFile : List U8String) : DriverState × Nat :=
  mainLoop fs paramMap argFile initialState

/-- The (input, output) pairs of the conversions in a list of engine calls. -/
def conversions : List EngineCall → List (U8String × U8String)
  | [] => []
  | EngineCall.distill i o :: cs => (i, o) :: conversions cs
  | _ :: cs => conversions cs

/-- A POSIX-like file system with nothing on disk, used to run the model on concrete
lines: a path is relative unless it starts with `/`. -/
def emptyPosixFS : FileSystem :=
  { isRelative := fun p => p.head? != some '/',
    canonical := fun _ => none,
    pathExists := fun _ => false,
    hasParentPath := fun p => p.contains '/',
    parentPath := fun p => p.reverse.dropWhile (· != '/') |>.reverse,
    currentPath := "/".toList,
    isDirectory := fun _ => false,
    recursiveDirectoryIterator := fun _ => [],
    preferredSeparator := '/' }

/-- The sub-option letters of the colour and grey channels. -/
def channelLetters : List Char := ['A', 'd', 'f', 'p', 'l', 'm', 'h', 'u', 'q']

/-- What one pattern character may take from the string, in the words of the glob
rule: `*` takes any run of characters (also none), `?` takes exactly one character,
any other pattern character takes exactly itself. -/
def pieceOk (p : Char) (piece : List Char) : Prop :=
  if p = '*' then True else if p = '?' then piece.length = 1 else piece = [p]

/-- Glob matching as a splitting: the string is cut into consecutive pieces, one per
pattern character, each piece allowed for its pattern character. -/
def globMatches (pat str : List Char) : Prop :=
  ∃ pieces : List (List Char), List.Forall₂ pieceOk pat pieces ∧ pieces.flatten = str

/-- The parameter an extra-options token stands for, in the words of the claim: a
token `key=value`, split at its first `=`, whose synthetic directive `i` + key is a
table token gives (configKey, value); any other token gives nothing. -/
def extraOptionResolved (token : U8String) : Option DistillerParam :=
  match findFirstOf '=' token with
  | none => none
  | some pos =>
    match paramMap.lookup ('i' :: token.take pos) with
    | none => none
    | some e => some (e.1, token.drop (pos + 1))

/-- A POSIX-like file system whose current directory `/` holds one directory `fonts`
with three files and a sub-directory, used to run the model on concrete lines. -/
def fontsFS : FileSystem :=
  { isRelative := fun p => p.head? != some '/',
    canonical := fun p =>
      if p = "/fonts".toList ∨ p = "fonts".toList then some "/fonts".toList else none,
    pathExists := fun p => p = "/fonts".toList ∨ p = "fonts".toList,
    hasParentPath := fun p => p.contains '/',
    parentPath := fun p => ((p.reverse.dropWhile (· != '/')).drop 1).reverse,
    currentPath := "/".toList,
    isDirectory := fun p => p = "/fonts".toList,
    recursiveDirectoryIterator := fun p =>
      if p = "/fonts".toList then
        [ { isDirectory := false, path := "/fonts/a.otf".toList, filename := "a.otf".toList },
          { isDirectory := true, path := "/fonts/sub".toList, filename := "sub".toList },
          { isDirectory := false, path := "/fonts/sub/b.otf".toList, filename := "b.otf".toList },
          { isDirectory := false, path := "/fonts/c.ttf".toList, filename := "c.ttf".toList } ]
      else [],
    preferredSeparator := '/' }

/-- The recursion of `patternMatch` (source lines 202-220) run with a bound on its
depth: each call uses one unit of `depth`, and `none` means the bound was reached before
the recursion ended.  The `&&` and `||` of the source are evaluated left to right, the
right operand only when needed. -/
def patternMatchDepth : Nat → List Char → List Char → Option Bool
  | 0, _, _ => none
  | _ + 1, [], str => some (str.headD NUL == NUL)
  | depth + 1, p :: pat, str =>
    if p = NUL then some (str.headD NUL == NUL)
    else if p = '?' then
      match str with
      | [] => some false
      | c :: cs => if c = NUL then some false else patternMatchDepth depth pat cs
    else if p = '*' then
      match patternMatchDepth depth pat str with
      | none => none
      | some true => some true
      | some false =>
        match str with
        | [] => some false
        | c :: cs => if c = NUL then some false else patternMatchDepth depth (p :: pat) cs
    else
      match str with
      | [] => some false
      | c :: cs => if p = c then patternMatchDepth depth pat cs else some false

/-- Channel isolation for one appended parameter `kv` of a line, in the words of the
claim: `kv` is the (key, value) of a table entry whose token begins with the first two
bytes of the line, the value being the rest of the line (after its third byte) when the
entry has no fixed value. -/
def channelEntry (line : U8String) (kv : DistillerParam) : Prop :=
  ∃ t e, (t, e) ∈ paramMap ∧ t.take 2 = line.take 2 ∧ kv.1 = e.1 ∧
    ((e.2 = [] ∧ kv.2 = line.drop 3) ∨ (e.2 ≠ [] ∧ kv.2 = e.2))

/-- The parameter state of the conversion engine, in the words of the claim: a map
from key to value (`none` for a key never set). -/
abbrev EngineParams := U8String → Option U8String

/-- One `setParameter`: the last write for a key wins. -/
def setParam (M : EngineParams) (key value : U8String) : EngineParams :=
  fun k => if k = key then some value else M k

/-- The effect of one engine call on the parameter state: `setParameter` updates it,
font actions and conversions leave it untouched. -/
def engineStep (M : EngineParams) : EngineCall → EngineParams
  | EngineCall.setParameter key value => setParam M key value
  | _ => M

/-- The parameter state after a list of engine calls, starting from `M`. -/
def engineParams (M : EngineParams) (calls : List EngineCall) : EngineParams :=
  calls.foldl engineStep M

/-- The `distill`, `addFonts` and `removeFont` calls of a call list, in order, each with
the parameter state of the engine at the moment of the call. -/
def observations (M : EngineParams) : List EngineCall → List (EngineCall × EngineParams)
  | [] => []
  | EngineCall.setParameter key value :: cs => observations (setParam M key value) cs
  | EngineCall.getFontNames _ :: cs => observations M cs
  | c :: cs => (c, M) :: observations M cs

/-- The conversion of a driver that is `convert` except that it clears the accumulator
after the flush. -/
def convertClearing (line : U8String) (st : DriverState) : DriverState :=
  { convert line st with distillerParams := [] }

/-- The loop body of the driver that clears after a conversion: `mainLine` with
`convertClearing` for `convert`. -/
def mainLineClearing (fs : FileSystem) (paramMap : ParamMap) (line : U8String)
    (st : DriverState) : Except Failure DriverState :=
  if line = [] then .ok st
  else if 1 < line.length ∧ line.headD NUL = '-' then
    dispatchDirective fs paramMap (line.drop 1) (line.length - 1) st
  else .ok (convertClearing line st)

/-- The loop of the driver that clears after a conversion: `mainLoop` with
`mainLineClearing` for `mainLine`. -/
def mainLoopClearing (fs : FileSystem) (paramMap : ParamMap) : List U8String → DriverState →
    DriverState × Nat
  | [], st => (st, 0)
  | line :: rest, st =>
    if 1024 ≤ line.length then (st, 0)
    else
      match mainLineClearing fs paramMap line st with
      | .error _ => (st, 1)
      | .ok st' => mainLoopClearing fs paramMap rest st'

/-- The run of the driver that clears after a conversion. -/
def runMainClearing (fs : FileSystem) (argFile : List U8String) : DriverState × Nat :=
  mainLoopClearing fs paramMap argFile initialState

/-- The `setParameter` calls of a flush of `params`. -/
def flushCalls (params : DistillerParams) : List EngineCall :=
  params.map (fun p => EngineCall.setParameter p.1 p.2)

/-- The relation kept between the state of `main` and the state of the clearing driver
after the same lines: same output path, same observations, same engine parameters, and
the accumulator of `main` is that of the clearing driver after a list `A` of parameters
whose flush no longer changes the engine parameters. -/
def related (M0 : EngineParams) (st st' : DriverState) : Prop :=
  st.outputFilePath = st'.outputFilePath ∧
  observations M0 st.calls = observations M0 st'.calls ∧
  engineParams M0 st.calls = engineParams M0 st'.calls ∧
  ∃ A, st.distillerParams = A ++ st'.distillerParams ∧
    engineParams (engineParams M0 st.calls) (flushCalls A) = engineParams M0 st.calls

/-- The relation `related` lifted to the results of one line: both succeed with related
states, or both fail. -/
def relatedResult (M0 : EngineParams) (r r' : Except Failure DriverState) : Prop :=
  match r, r' with
  | .ok s, .ok s' => related M0 s s'
  | .error _, .error _ => True
  | _, _ => False

/-! ## The directive table -/

theorem paramMap_keys_nodup : (paramMap.map Prod.fst).Nodup := by decide

theorem mem_of_lookup {m : ParamMap} {k : U8String} {e : DistillerParam}
    (h : m.lookup k = some e) : (k, e) ∈ m := by
  induction m with
  | nil => simp at h
  | cons p m ih =>
    obtain ⟨k', e'⟩ := p
    rw [List.lookup_cons] at h
    by_cases hk : k = k'
    · subst hk
      simp at h
      simp [h]
    · have hb : (k == k') = false := by simpa using hk
      rw [hb] at h
      exact List.mem_cons_of_mem _ (ih h)

theorem lookup_of_mem {m : ParamMap} (hm : (m.map Prod.fst).Nodup) {k : U8String}
    {e : DistillerParam} (h : (k, e) ∈ m) : m.lookup k = some e := by
  induction m with
  | nil => simp at h
  | cons p m ih =>
    obtain ⟨k', e'⟩ := p
    rw [List.map_cons, List.nodup_cons] at hm
    rw [List.lookup_cons]
    rcases List.mem_cons.1 h with heq | hmem
    · have h1 : k = k' := congrArg Prod.fst heq
      have h2 : e = e' := congrArg Prod.snd heq
      subst h1 h2
      simp
    · have hne : k ≠ k' := by
        intro hk
        apply hm.1
        rw [← hk]
        exact List.mem_map.2 ⟨(k, e), hmem, rfl⟩
      have hb : (k == k') = false := by simpa using hne
      rw [hb]
      exact ih hm.2 hmem

/-! ## pushParam -/

/-- C1. For every table entry with a non-empty fixed value: the line that is exactly the
token resolves to (configKey, fixedValue), appended once; the token followed by any
non-empty text is rejected and the parameter list stays as it was. -/
theorem pushParam_fixed_value (t k v : U8String) (hmem : (t, (k, v)) ∈ paramMap)
    (hv : v ≠ []) (params : DistillerParams) :
    pushParam t t.length t.length paramMap params = (true, params ++ [(k, v)]) ∧
    ∀ s : U8String, s ≠ [] →
      pushParam (t ++ s) (t.length + s.length) t.length paramMap params = (false, params) := by
  have hl : paramMap.lookup t = some (k, v) := lookup_of_mem paramMap_keys_nodup hmem
  have hlen : ¬ v.length = 0 := fun h => hv (List.length_eq_zero.1 h)
  constructor
  · simp [pushParam, hl, hlen]
  · intro s hs
    have hs' : ¬ s.length = 0 := fun h => hs (List.length_eq_zero.1 h)
    simp [pushParam, hl, hlen, hs']

theorem pushParam_fixed_value_witness :
    pushParam "dcA".toList 3 3 paramMap [] =
        (true, [("colorimagecompression".toList, "auto".toList)]) ∧
      pushParam "dcAx".toList 4 3 paramMap [] = (false, []) := by
  have h := pushParam_fixed_value "dcA".toList "colorimagecompression".toList "auto".toList
    (by decide) (by decide) []
  exact ⟨h.1, h.2 "x".toList (by decide)⟩

/-- C2. For every table entry with an empty fixed value (the thirteen tokens listed),
the token followed by any text `s` resolves to (configKey, `s`), appended once: the
value is the whole suffix after the token. -/
theorem pushParam_free_value :
    (paramMap.filter (fun e => e.2.2.isEmpty)).map Prod.fst =
        ["dcq".toList, "dgq".toList, "dd".toList, "dP".toList, "fp".toList,
          "idefaultpanosestyle".toList, "ipanosedb".toList, "Jedc".toList, "Jedf".toList,
          "Jpdc".toList, "Jpdf".toList, "Pf".toList, "Pr".toList] ∧
    ∀ t k : U8String, (t, (k, [])) ∈ paramMap → ∀ (s : U8String) (params : DistillerParams),
      pushParam (t ++ s) (t.length + s.length) t.length paramMap params =
        (true, params ++ [(k, s)]) := by
  refine ⟨by decide, ?_⟩
  intro t k hmem s params
  have hl : paramMap.lookup t = some (k, []) := lookup_of_mem paramMap_keys_nodup hmem
  simp [pushParam, hl]

theorem pushParam_free_value_witness :
    pushParam "dP1.4 beta".toList 10 2 paramMap [] =
      (true, [("pdfversion".toList, "1.4 beta".toList)]) :=
  pushParam_free_value.2 "dP".toList "pdfversion".toList (by decide) "1.4 beta".toList []

/-! ## Image options -/

theorem pushParam_of_lookup_none {line : U8String} {len need : Nat} {m : ParamMap}
    {params : DistillerParams} (h : m.lookup (line.take need) = none) :
    pushParam line len need m params = (false, params) := by
  unfold pushParam
  split
  · rfl
  · rw [h]

theorem foldl_fixed {σ ι : Type} (f : σ → ι → σ) (is : List ι)
    (h : ∀ i ∈ is, ∀ st, f st i = st) (st : σ) : is.foldl f st = st := by
  induction is generalizing st with
  | nil => rfl
  | cons i is ih =>
    rw [List.foldl_cons, h i (List.mem_cons_self _ _) st]
    exact ih (fun j hj => h j (List.mem_cons_of_mem _ hj)) st

theorem imageOptionsBody_skip {line : U8String} {len : Nat} {m : ParamMap}
    (st : Bool × DistillerParams) {i : Nat}
    (hq : line.getD i NUL ≠ 'q') (hl : line.getD i NUL ≠ 'l') (hm : line.getD i NUL ≠ 'm')
    (hh : line.getD i NUL ≠ 'h') (hu : line.getD i NUL ≠ 'u')
    (hnone : m.lookup (line.take 2 ++ [line.getD i NUL]) = none) :
    imageOptionsBody line len m st i = st := by
  have h3 : (line.take 2 ++ [line.getD i NUL]).take 3 = line.take 2 ++ [line.getD i NUL] := by
    apply List.take_of_length_le
    simp [List.length_take]
  have hp : pushParam (line.take 2 ++ [line.getD i NUL]) 3 3 m st.2 = (false, st.2) :=
    pushParam_of_lookup_none (by rw [h3]; exact hnone)
  have hlmhu : ¬ (line.getD i NUL = 'l' ∨ line.getD i NUL = 'm' ∨ line.getD i NUL = 'h' ∨
      line.getD i NUL = 'u') := by
    rintro (h | h | h | h)
    exacts [hl h, hm h, hh h, hu h]
  unfold imageOptionsBody
  dsimp only
  rw [if_neg hq, if_neg hlmhu, hp]
  simp

theorem lookup_dc_none {c : Char} (hc : c ∉ channelLetters) :
    paramMap.lookup ['d', 'c', c] = none := by
  cases h : paramMap.lookup ['d', 'c', c] with
  | none => rfl
  | some e =>
    exfalso
    have hmem := mem_of_lookup h
    simp [channelLetters] at hc
    simp [paramMap] at hmem
    simp_all

theorem lookup_dg_none {c : Char} (hc : c ∉ channelLetters) :
    paramMap.lookup ['d', 'g', c] = none := by
  cases h : paramMap.lookup ['d', 'g', c] with
  | none => rfl
  | some e =>
    exfalso
    have hmem := mem_of_lookup h
    simp [channelLetters] at hc
    simp [paramMap] at hmem
    simp_all

theorem pushParam_of_lookup_free {line : U8String} {len need : Nat} {m : ParamMap}
    {params : DistillerParams} {k : U8String} (hlen : need ≤ len)
    (h : m.lookup (line.take need) = some (k, [])) :
    pushParam line len need m params = (true, params ++ [(k, line.drop need)]) := by
  unfold pushParam
  rw [if_neg (by omega), h]
  simp

theorem pushParam_of_lookup_fixed {line : U8String} {need : Nat} {m : ParamMap}
    {params : DistillerParams} {k v : U8String} (hv : v ≠ [])
    (h : m.lookup (line.take need) = some (k, v)) :
    pushParam line need need m params = (true, params ++ [(k, v)]) := by
  have hlen : ¬ v.length = 0 := fun h0 => hv (List.length_eq_zero.1 h0)
  unfold pushParam
  rw [if_neg (by omega), h]
  simp [hlen]

theorem qfactor_line (a b : Char) (kq kj vj kc vc : U8String) (hvj : vj ≠ []) (hvc : vc ≠ [])
    (h2 : paramMap.lookup [a, b] = none)
    (hq : paramMap.lookup [a, b, 'q'] = some (kq, []))
    (hu : paramMap.lookup [a, b, 'u'] = some (kj, vj))
    (hd : paramMap.lookup [a, b, 'd'] = some (kc, vc))
    (hnone : ∀ c, c ∉ channelLetters → paramMap.lookup [a, b, c] = none)
    (v : U8String) (hv : ∀ c ∈ v, c ∉ channelLetters) (params : DistillerParams) :
    processDistillOptions ([a, b, 'q'] ++ v) (3 + v.length) paramMap params =
      (true, params ++ [(kq, v), (kj, vj), (kc, vc)]) := by
  have hp2 : pushParam ([a, b, 'q'] ++ v) (3 + v.length) 2 paramMap params = (false, params) :=
    pushParam_of_lookup_none (by simpa using h2)
  have hpq : pushParam ([a, b, 'q'] ++ v) (3 + v.length) 3 paramMap params =
      (true, params ++ [(kq, v)]) := by
    rw [pushParam_of_lookup_free (k := kq) (by omega) (by simpa using hq)]
    simp
  have hpu : pushParam ([a, b] ++ ['u']) 3 3 paramMap (params ++ [(kq, v)]) =
      (true, params ++ [(kq, v)] ++ [(kj, vj)]) :=
    pushParam_of_lookup_fixed hvj (by simpa using hu)
  have hpd : pushParam ([a, b] ++ ['d']) 3 3 paramMap (params ++ [(kq, v)] ++ [(kj, vj)]) =
      (true, params ++ [(kq, v)] ++ [(kj, vj)] ++ [(kc, vc)]) :=
    pushParam_of_lookup_fixed hvc (by simpa using hd)
  have hbody : imageOptionsBody ([a, b, 'q'] ++ v) (3 + v.length) paramMap (false, params) 2 =
      (true, params ++ [(kq, v), (kj, vj), (kc, vc)]) := by
    have htake : ([a, b, 'q'] ++ v).take 2 = [a, b] := by simp
    have hget : ([a, b, 'q'] ++ v).getD 2 NUL = 'q' := rfl
    unfold imageOptionsBody
    dsimp only
    rw [if_pos hget, hpq, htake, hpu, hpd]
    simp
  have hrest : (List.range' 3 v.length).foldl
      (imageOptionsBody ([a, b, 'q'] ++ v) (3 + v.length) paramMap)
      (true, params ++ [(kq, v), (kj, vj), (kc, vc)]) =
      (true, params ++ [(kq, v), (kj, vj), (kc, vc)]) := by
    apply foldl_fixed
    intro i hi st
    rw [List.mem_range'_1] at hi
    have hget : ([a, b, 'q'] ++ v).getD i NUL = v.getD (i - 3) NUL := by
      obtain ⟨j, rfl⟩ : ∃ j, i = j + 3 := ⟨i - 3, by omega⟩
      rw [show j + 3 - 3 = j by omega]
      rfl
    have hmem : v.getD (i - 3) NUL ∈ v := by
      have hlt : i - 3 < v.length := by omega
      rw [List.getD_eq_getElem v NUL hlt]
      exact List.getElem_mem hlt
    have hc := hv _ hmem
    rw [← hget] at hc
    have hc' := hc
    simp only [channelLetters, List.mem_cons, List.mem_singleton, not_or] at hc'
    have htake : ([a, b, 'q'] ++ v).take 2 = [a, b] := by simp
    apply imageOptionsBody_skip st hc'.2.2.2.2.2.2.2.2.1 hc'.2.2.2.2.1 hc'.2.2.2.2.2.1
      hc'.2.2.2.2.2.2.1 hc'.2.2.2.2.2.2.2.1
    rw [htake]
    exact hnone _ hc
  unfold processDistillOptions
  dsimp only
  rw [hp2]
  have hrange : List.range' 2 (3 + v.length - 2) = 2 :: List.range' 3 v.length := by
    have : 3 + v.length - 2 = v.length + 1 := by omega
    rw [this, List.range'_succ]
  have himg : processImageOptions ([a, b, 'q'] ++ v) (3 + v.length) paramMap params =
      (true, params ++ [(kq, v), (kj, vj), (kc, vc)]) := by
    unfold processImageOptions
    rw [if_neg (by omega), hrange, List.foldl_cons, hbody, hrest]
  rw [himg]
  rfl

/-- C3. On the line `dcq` + v (and `dgq` + v), where v has none of the sub-option
letters A d f p l m h u q, `processDistillOptions` returns true and appends exactly the
q-factor v, the `user` JPEG quality and the `dct` compression of the channel, in this
order. -/
theorem processDistillOptions_qfactor (v : U8String) (hv : ∀ c ∈ v, c ∉ channelLetters)
    (params : DistillerParams) :
    processDistillOptions ("dcq".toList ++ v) (3 + v.length) paramMap params =
      (true, params ++ [("colorqfactor".toList, v), ("colorjpegquality".toList, "user".toList),
        ("colorimagecompression".toList, "dct".toList)]) ∧
    processDistillOptions ("dgq".toList ++ v) (3 + v.length) paramMap params =
      (true, params ++ [("grayqfactor".toList, v), ("grayjpegquality".toList, "user".toList),
        ("grayimagecompression".toList, "dct".toList)]) :=
  ⟨qfactor_line 'd' 'c' _ _ _ _ _ (by decide) (by decide) (by decide) (by decide) (by decide)
      (by decide) (fun _ hc => lookup_dc_none hc) v hv params,
    qfactor_line 'd' 'g' _ _ _ _ _ (by decide) (by decide) (by decide) (by decide) (by decide)
      (by decide) (fun _ hc => lookup_dg_none hc) v hv params⟩

theorem processDistillOptions_qfactor_witness :
    processDistillOptions "dcq0.5".toList 6 paramMap [] =
      (true, [("colorqfactor".toList, "0.5".toList), ("colorjpegquality".toList, "user".toList),
        ("colorimagecompression".toList, "dct".toList)]) :=
  (processDistillOptions_qfactor "0.5".toList (by decide) []).1

/-- C4 (the code at the claim's own example). On the line `dcfl` the `l` step looks up
the first three bytes of the line, `dcf`, again: the result is flate, flate, dct, and the
`colorjpegquality=low` parameter of the claim is not appended. -/
theorem processDistillOptions_dcfl :
    processDistillOptions "dcfl".toList 4 paramMap [] =
      (true, [("colorimagecompression".toList, "flate".toList),
        ("colorimagecompression".toList, "flate".toList),
        ("colorimagecompression".toList, "dct".toList)]) ∧
    processDistillOptions "dcfl".toList 4 paramMap [] ≠
      (true, [("colorimagecompression".toList, "flate".toList),
        ("colorjpegquality".toList, "low".toList),
        ("colorimagecompression".toList, "dct".toList)]) := by
  decide

theorem tier_line (a b y : Char) (kj vj kc vc : U8String)
    (hy : y = 'l' ∨ y = 'm' ∨ y = 'h' ∨ y = 'u') (hvj : vj ≠ []) (hvc : vc ≠ [])
    (h2 : paramMap.lookup [a, b] = none)
    (ht : paramMap.lookup [a, b, y] = some (kj, vj))
    (hd : paramMap.lookup [a, b, 'd'] = some (kc, vc)) (params : DistillerParams) :
    processDistillOptions [a, b, y] 3 paramMap params =
      (true, params ++ [(kj, vj), (kc, vc)]) := by
  have hp2 : pushParam [a, b, y] 3 2 paramMap params = (false, params) :=
    pushParam_of_lookup_none (by simpa using h2)
  have hpt : pushParam [a, b, y] 3 3 paramMap params = (true, params ++ [(kj, vj)]) :=
    pushParam_of_lookup_fixed hvj (by simpa using ht)
  have hpd : pushParam ([a, b] ++ ['d']) 3 3 paramMap (params ++ [(kj, vj)]) =
      (true, params ++ [(kj, vj)] ++ [(kc, vc)]) :=
    pushParam_of_lookup_fixed hvc (by simpa using hd)
  have hq : ¬ ([a, b, y].getD 2 NUL = 'q') := by
    show ¬ (y = 'q')
    rcases hy with h | h | h | h <;> rw [h] <;> decide
  have hbody : imageOptionsBody [a, b, y] 3 paramMap (false, params) 2 =
      (true, params ++ [(kj, vj), (kc, vc)]) := by
    have htake : [a, b, y].take 2 = [a, b] := rfl
    unfold imageOptionsBody
    dsimp only
    have hy' : [a, b, y].getD 2 NUL = 'l' ∨ [a, b, y].getD 2 NUL = 'm' ∨
        [a, b, y].getD 2 NUL = 'h' ∨ [a, b, y].getD 2 NUL = 'u' := hy
    rw [if_neg hq, if_pos hy', hpt, htake, hpd]
    simp
  have himg : processImageOptions [a, b, y] 3 paramMap params =
      (true, params ++ [(kj, vj), (kc, vc)]) := by
    unfold processImageOptions
    rw [if_neg (by omega)]
    exact hbody
  unfold processDistillOptions
  dsimp only
  rw [hp2, himg]
  rfl

/-- C5. On the three-byte line channel + tier letter (channel `dc` or `dg`, letter l, m,
h or u) `processDistillOptions` returns true and appends exactly the JPEG quality of the
tier and then the `dct` compression of the channel. -/
theorem processDistillOptions_tier (params : DistillerParams) :
    processDistillOptions "dcl".toList 3 paramMap params =
      (true, params ++ [("colorjpegquality".toList, "low".toList),
        ("colorimagecompression".toList, "dct".toList)]) ∧
    processDistillOptions "dcm".toList 3 paramMap params =
      (true, params ++ [("colorjpegquality".toList, "medium".toList),
        ("colorimagecompression".toList, "dct".toList)]) ∧
    processDistillOptions "dch".toList 3 paramMap params =
      (true, params ++ [("colorjpegquality".toList, "high".toList),
        ("colorimagecompression".toList, "dct".toList)]) ∧
    processDistillOptions "dcu".toList 3 paramMap params =
      (true, params ++ [("colorjpegquality".toList, "user".toList),
        ("colorimagecompression".toList, "dct".toList)]) ∧
    processDistillOptions "dgl".toList 3 paramMap params =
      (true, params ++ [("grayjpegquality".toList, "low".toList),
        ("grayimagecompression".toList, "dct".toList)]) ∧
    processDistillOptions "dgm".toList 3 paramMap params =
      (true, params ++ [("grayjpegquality".toList, "medium".toList),
        ("grayimagecompression".toList, "dct".toList)]) ∧
    processDistillOptions "dgh".toList 3 paramMap params =
      (true, params ++ [("grayjpegquality".toList, "high".toList),
        ("grayimagecompression".toList, "dct".toList)]) ∧
    processDistillOptions "dgu".toList 3 paramMap params =
      (true, params ++ [("grayjpegquality".toList, "user".toList),
        ("grayimagecompression".toList, "dct".toList)]) :=
  ⟨tier_line 'd' 'c' 'l' _ _ _ _ (by decide) (by decide) (by decide) (by decide) (by decide)
      (by decide) params,
    tier_line 'd' 'c' 'm' _ _ _ _ (by decide) (by decide) (by decide) (by decide) (by decide)
      (by decide) params,
    tier_line 'd' 'c' 'h' _ _ _ _ (by decide) (by decide) (by decide) (by decide) (by decide)
      (by decide) params,
    tier_line 'd' 'c' 'u' _ _ _ _ (by decide) (by decide) (by decide) (by decide) (by decide)
      (by decide) params,
    tier_line 'd' 'g' 'l' _ _ _ _ (by decide) (by decide) (by decide) (by decide) (by decide)
      (by decide) params,
    tier_line 'd' 'g' 'm' _ _ _ _ (by decide) (by decide) (by decide) (by decide) (by decide)
      (by decide) params,
    tier_line 'd' 'g' 'h' _ _ _ _ (by decide) (by decide) (by decide) (by decide) (by decide)
      (by decide) params,
    tier_line 'd' 'g' 'u' _ _ _ _ (by decide) (by decide) (by decide) (by decide) (by decide)
      (by decide) params⟩

/-! ## patternMatch -/

theorem globMatches_nil (s : List Char) : globMatches [] s ↔ s = [] := by
  constructor
  · rintro ⟨pieces, hf, rfl⟩
    cases hf
    rfl
  · rintro rfl
    exact ⟨[], List.Forall₂.nil, rfl⟩

theorem globMatches_cons (c : Char) (p s : List Char) :
    globMatches (c :: p) s ↔
      ∃ piece rest, pieceOk c piece ∧ globMatches p rest ∧ s = piece ++ rest := by
  constructor
  · rintro ⟨pieces, hf, rfl⟩
    cases hf with
    | cons h hrest => exact ⟨_, _, h, ⟨_, hrest, rfl⟩, by simp⟩
  · rintro ⟨piece, rest, h, ⟨pieces, hf, rfl⟩, rfl⟩
    exact ⟨piece :: pieces, List.Forall₂.cons h hf, by simp⟩

theorem globMatches_question (p s : List Char) :
    globMatches ('?' :: p) s ↔ ∃ x cs, s = x :: cs ∧ globMatches p cs := by
  rw [globMatches_cons]
  constructor
  · rintro ⟨piece, rest, h, hg, rfl⟩
    have h1 : piece.length = 1 := by simpa [pieceOk] using h
    obtain ⟨x, rfl⟩ := List.length_eq_one.1 h1
    exact ⟨x, rest, rfl, hg⟩
  · rintro ⟨x, cs, rfl, hg⟩
    exact ⟨[x], cs, by simp [pieceOk], hg, rfl⟩

theorem globMatches_literal (c : Char) (hstar : c ≠ '*') (hq : c ≠ '?') (p s : List Char) :
    globMatches (c :: p) s ↔ ∃ cs, s = c :: cs ∧ globMatches p cs := by
  rw [globMatches_cons]
  constructor
  · rintro ⟨piece, rest, h, hg, rfl⟩
    have h1 : piece = [c] := by simpa [pieceOk, hstar, hq] using h
    subst h1
    exact ⟨rest, rfl, hg⟩
  · rintro ⟨cs, rfl, hg⟩
    exact ⟨[c], cs, by simp [pieceOk, hstar, hq], hg, rfl⟩

theorem globMatches_star (p s : List Char) :
    globMatches ('*' :: p) s ↔
      globMatches p s ∨ ∃ x cs, s = x :: cs ∧ globMatches ('*' :: p) cs := by
  constructor
  · intro h
    obtain ⟨piece, rest, _, hg, rfl⟩ := (globMatches_cons _ _ _).1 h
    cases piece with
    | nil => exact Or.inl hg
    | cons x piece =>
      refine Or.inr ⟨x, piece ++ rest, rfl, ?_⟩
      exact (globMatches_cons _ _ _).2 ⟨piece, rest, by simp [pieceOk], hg, rfl⟩
  · rintro (h | ⟨x, cs, rfl, h⟩)
    · exact (globMatches_cons _ _ _).2 ⟨[], s, by simp [pieceOk], h, rfl⟩
    · obtain ⟨piece, rest, _, hg, rfl⟩ := (globMatches_cons _ _ _).1 h
      exact (globMatches_cons _ _ _).2 ⟨x :: piece, rest, by simp [pieceOk], hg, rfl⟩

theorem patternMatch_iff_globMatches (p s : List Char) (hp : NUL ∉ p) (hs : NUL ∉ s) :
    patternMatch p s = true ↔ globMatches p s := by
  induction p, s using patternMatch.induct with
  | case1 str =>
    rw [patternMatch, globMatches_nil]
    cases str with
    | nil => simp
    | cons c cs =>
      have hc : c ≠ NUL := fun h => hs (h ▸ List.mem_cons_self _ _)
      simp [hc]
  | case2 pat str => exact absurd (List.mem_cons_self _ _) hp
  | case3 pat _ =>
    rw [patternMatch, globMatches_question]
    simp
    decide
  | case4 pat c cs _ ih =>
    have hc : c ≠ NUL := fun h => hs (h ▸ List.mem_cons_self _ _)
    have ih' := ih (fun h => hp (List.mem_cons_of_mem _ h)) (fun h => hs (List.mem_cons_of_mem _ h))
    rw [patternMatch, globMatches_question]
    have hn : ¬ '?' = NUL := by decide
    simp [hn, hc, ih']
    constructor
    · intro h
      exact ⟨c, cs, ⟨rfl, rfl⟩, h⟩
    · rintro ⟨_, _, ⟨rfl, rfl⟩, h⟩
      exact h
  | case5 pat str _ _ ih1 ih2 =>
    have ih1' := ih1 (fun h => hp (List.mem_cons_of_mem _ h)) hs
    have hn : ¬ '*' = NUL := by decide
    have hq : ¬ '*' = '?' := by decide
    rw [globMatches_star]
    cases str with
    | nil =>
      rw [patternMatch]
      simp [hn, hq, ih1']
    | cons c cs =>
      have hc : c ≠ NUL := fun h => hs (h ▸ List.mem_cons_self _ _)
      have ih2' := ih2 hp (fun h => hs (List.mem_cons_of_mem _ h))
      rw [patternMatch]
      simp [hn, hq, hc, ih1', ih2']
      apply or_congr_right
      constructor
      · intro h
        exact ⟨c, cs, ⟨rfl, rfl⟩, h⟩
      · rintro ⟨_, _, ⟨rfl, rfl⟩, h⟩
        exact h
  | case6 c pat hn hq hstar =>
    rw [patternMatch, globMatches_literal c hstar hq]
    simp [hn, hq, hstar]
  | case7 c pat hn hq hstar x cs ih =>
    have ih' := ih (fun h => hp (List.mem_cons_of_mem _ h)) (fun h => hs (List.mem_cons_of_mem _ h))
    rw [patternMatch, globMatches_literal c hstar hq]
    simp [hn, hq, hstar, ih']
    constructor
    · rintro ⟨rfl, h⟩
      exact ⟨cs, ⟨rfl, rfl⟩, h⟩
    · rintro ⟨_, ⟨rfl, rfl⟩, h⟩
      exact ⟨rfl, h⟩

theorem globMatches_self (p : List Char) (hstar : '*' ∉ p) (hq : '?' ∉ p) (s : List Char) :
    globMatches p s ↔ s = p := by
  induction p generalizing s with
  | nil => exact globMatches_nil s
  | cons c p ih =>
    have hc1 : c ≠ '*' := fun h => hstar (h ▸ List.mem_cons_self _ _)
    have hc2 : c ≠ '?' := fun h => hq (h ▸ List.mem_cons_self _ _)
    rw [globMatches_literal c hc1 hc2]
    constructor
    · rintro ⟨cs, rfl, h⟩
      rw [(ih (fun h => hstar (List.mem_cons_of_mem _ h))
        (fun h => hq (List.mem_cons_of_mem _ h)) cs).1 h]
    · rintro rfl
      exact ⟨p, rfl, (ih (fun h => hstar (List.mem_cons_of_mem _ h))
        (fun h => hq (List.mem_cons_of_mem _ h)) p).2 rfl⟩

/-- C6. For a pattern and a string without NUL, `patternMatch` is true exactly when the
string splits into consecutive pieces, one per pattern character, with `*` taking any
run (also the empty one), `?` exactly one character and every other pattern character
exactly itself.  So `*` matches every string, and a pattern without `*` and `?` matches
only the string equal to it. -/
theorem patternMatch_glob (p s : List Char) (hp : NUL ∉ p) (hs : NUL ∉ s) :
    (patternMatch p s = true ↔ globMatches p s) ∧
    patternMatch ['*'] s = true ∧
    ('*' ∉ p → '?' ∉ p → (patternMatch p s = true ↔ s = p)) := by
  refine ⟨patternMatch_iff_globMatches p s hp hs, ?_, ?_⟩
  · rw [patternMatch_iff_globMatches ['*'] s (by decide) hs]
    exact ⟨[s], List.Forall₂.cons (by simp [pieceOk]) List.Forall₂.nil, by simp⟩
  · intro hstar hq
    rw [patternMatch_iff_globMatches p s hp hs]
    exact globMatches_self p hstar hq s

theorem patternMatch_glob_witness :
    (patternMatch "a.otf".toList "b.otf".toList = true ↔
        globMatches "a.otf".toList "b.otf".toList) ∧
      patternMatch ['*'] "b.otf".toList = true ∧
      (patternMatch "a.otf".toList "b.otf".toList = true ↔ "b.otf".toList = "a.otf".toList) :=
  have h := patternMatch_glob "a.otf".toList "b.otf".toList (by decide) (by decide)
  ⟨h.1, h.2.1, h.2.2 (by decide) (by decide)⟩

/-! ## The job driver -/

theorem conversions_append (a b : List EngineCall) :
    conversions (a ++ b) = conversions a ++ conversions b := by
  induction a with
  | nil => rfl
  | cons c a ih => cases c <;> simp [conversions, ih]

theorem conversions_setDistillerParameters (calls : List EngineCall) (params : DistillerParams) :
    conversions (setDistillerParameters calls params) = conversions calls := by
  unfold setDistillerParameters
  rw [conversions_append]
  have h : conversions (params.map (fun p => EngineCall.setParameter p.1 p.2)) = [] := by
    induction params with
    | nil => rfl
    | cons p ps ih => simpa [conversions] using ih
  rw [h, List.append_nil]

theorem conversions_processFontOptions (fs : FileSystem) (line : U8String) (len : Nat)
    (params : DistillerParams) (calls : List EngineCall)
    (r : Bool × DistillerParams × List EngineCall)
    (h : processFontOptions fs line len paramMap params calls = .ok r) :
    conversions r.2.2 = conversions calls := by
  unfold processFontOptions at h
  dsimp only at h
  split at h
  · split at h
    · cases h
    · cases h
      rfl
  · split at h
    · cases h
      simp [conversions_append, conversions_setDistillerParameters, conversions]
    · split at h
      · split at h
        · cases h
        · cases h
          simp [conversions_append, conversions_setDistillerParameters, conversions]
      · split at h
        · cases h
          simp [conversions_append, conversions]
        · cases h
          rfl

theorem conversions_dispatchDirective (fs : FileSystem) (pline : U8String) (len : Nat)
    (st st' : DriverState) (h : dispatchDirective fs paramMap pline len st = .ok st') :
    conversions st'.calls = conversions st.calls := by
  unfold dispatchDirective at h
  dsimp only at h
  split at h
  · cases h
    rfl
  · split at h
    · split at h
      · cases h
      · rename_i r hr
        cases h
        exact conversions_processFontOptions fs pline len _ _ r hr
    · split at h
      · split at h
        · cases h
        · cases h
          rfl
      · split at h
        · split at h
          · cases h
          · cases h
            rfl
        · split at h
          · split at h
            · cases h
            · cases h
              rfl
          · split at h
            · cases h
              rfl
            · cases h
              rfl

/-- C7 (the code on the sample argument file of the usage text). With no `-o` in the
file the second input line `test2.ps` is converted to `test1.ps.pdf`, the output path
of the first conversion, and not to `test2.ps.pdf`: `outputFilePath` keeps the value
computed for the first input. -/
theorem runMain_default_output_reused (fs : FileSystem) :
    conversions (runMain fs ["-d".toList, "test1.ps".toList, "test2.ps".toList]).1.calls =
      [("test1.ps".toList, "test1.ps.pdf".toList), ("test2.ps".toList, "test1.ps.pdf".toList)] ∧
    "test1.ps.pdf".toList ≠ "test2.ps".toList ++ ".pdf".toList := by
  constructor
  · rfl
  · decide

/-- C8 (the code when an output is fed back as an input). With no `-o` in the file,
after `a.ps` has been converted to `a.ps.pdf`, the input line `a.ps.pdf` is converted
with output path `a.ps.pdf`: the second conversion writes the file it reads. -/
theorem runMain_output_fed_back_collides (fs : FileSystem) :
    conversions (runMain fs ["a.ps".toList, "a.ps.pdf".toList]).1.calls =
      [("a.ps".toList, "a.ps.pdf".toList), ("a.ps.pdf".toList, "a.ps.pdf".toList)] := by
  rfl

/-- C10. In the loop of `main` an empty line changes nothing; a line longer than one
byte that starts with `-` goes to the directive switch and adds no conversion; every
other non-empty line is converted: the engine calls grow by the flushed parameters and
exactly one `distill` whose input path is the whole line.  In particular `-d` is a
directive (and changes nothing), and the one-byte line `-` is converted. -/
theorem mainLine_classification (fs : FileSystem) (line : U8String) (st : DriverState) :
    (line = [] → mainLine fs paramMap line st = .ok st) ∧
    (1 < line.length → line.head? = some '-' →
      mainLine fs paramMap line st =
          dispatchDirective fs paramMap (line.drop 1) (line.length - 1) st ∧
        match mainLine fs paramMap line st with
        | .ok st' => conversions st'.calls = conversions st.calls
        | .error _ => True) ∧
    (line ≠ [] → ¬ (1 < line.length ∧ line.head? = some '-') →
      mainLine fs paramMap line st = .ok (convert line st) ∧
        (convert line st).calls = setDistillerParameters st.calls st.distillerParams ++
          [EngineCall.distill line (convert line st).outputFilePath] ∧
        conversions (convert line st).calls =
          conversions st.calls ++ [(line, (convert line st).outputFilePath)]) ∧
    mainLine fs paramMap "-d".toList st = .ok st ∧
    mainLine fs paramMap "-".toList st = .ok (convert "-".toList st) := by
  refine ⟨?_, ?_, ?_, ?_, ?_⟩
  · rintro rfl
    rfl
  · intro hlen hhead
    have hne : line ≠ [] := by
      rintro rfl
      simp at hlen
    have hd : line.headD NUL = '-' := by
      cases line with
      | nil => exact absurd rfl hne
      | cons c cs => simpa using hhead
    have hm : mainLine fs paramMap line st =
        dispatchDirective fs paramMap (line.drop 1) (line.length - 1) st := by
      unfold mainLine
      rw [if_neg hne, if_pos ⟨hlen, hd⟩]
    refine ⟨hm, ?_⟩
    rw [hm]
    cases h : dispatchDirective fs paramMap (line.drop 1) (line.length - 1) st with
    | error e => trivial
    | ok st' => exact conversions_dispatchDirective fs _ _ st st' h
  · intro hne hnd
    have hnd' : ¬ (1 < line.length ∧ line.headD NUL = '-') := by
      rintro ⟨h1, h2⟩
      apply hnd
      refine ⟨h1, ?_⟩
      cases line with
      | nil => exact absurd rfl hne
      | cons c cs => simpa using h2
    refine ⟨?_, rfl, ?_⟩
    · unfold mainLine
      rw [if_neg hne, if_neg hnd']
    · show conversions (setDistillerParameters st.calls st.distillerParams ++ _) = _
      rw [conversions_append, conversions_setDistillerParameters]
      rfl
  · have h : processDistillOptions "d".toList 1 paramMap st.distillerParams =
        (false, st.distillerParams) := by
      have hl : paramMap.lookup ['d'] = none := by decide
      simp [processDistillOptions, processImageOptions, pushParam, hl]
    show Except.ok { st with distillerParams :=
      (processDistillOptions "d".toList 1 paramMap st.distillerParams).2 } = Except.ok st
    rw [h]
  · rfl

theorem mainLine_classification_witness :
    mainLine emptyPosixFS paramMap [] initialState = .ok initialState ∧
    (mainLine emptyPosixFS paramMap "-dz".toList initialState =
        dispatchDirective emptyPosixFS paramMap ("-dz".toList.drop 1) ("-dz".toList.length - 1)
          initialState ∧
      match mainLine emptyPosixFS paramMap "-dz".toList initialState with
      | .ok st' => conversions st'.calls = conversions initialState.calls
      | .error _ => True) ∧
    (mainLine emptyPosixFS paramMap "a.ps".toList initialState =
        .ok (convert "a.ps".toList initialState) ∧
      (convert "a.ps".toList initialState).calls =
        setDistillerParameters initialState.calls initialState.distillerParams ++
          [EngineCall.distill "a.ps".toList (convert "a.ps".toList initialState).outputFilePath] ∧
      conversions (convert "a.ps".toList initialState).calls =
        conversions initialState.calls ++
          [("a.ps".toList, (convert "a.ps".toList initialState).outputFilePath)]) :=
  ⟨(mainLine_classification emptyPosixFS [] initialState).1 rfl,
    (mainLine_classification emptyPosixFS "-dz".toList initialState).2.1 (by decide) (by decide),
    (mainLine_classification emptyPosixFS "a.ps".toList initialState).2.2.1 (by decide)
      (by decide)⟩

/-! ## Extra options -/

theorem findFirstOf_none {c : Char} {t : U8String} (h : c ∉ t) : findFirstOf c t = none := by
  induction t with
  | nil => rfl
  | cons x xs ih =>
    have hx : x ≠ c := fun e => h (e ▸ List.mem_cons_self _ _)
    simp [findFirstOf, hx, ih (fun hm => h (List.mem_cons_of_mem _ hm))]

theorem findFirstOf_some {c : Char} {t : U8String} {pos : Nat}
    (h : findFirstOf c t = some pos) :
    (t.take pos).length = pos ∧ t = t.take pos ++ c :: t.drop (pos + 1) ∧ c ∉ t.take pos := by
  induction t generalizing pos with
  | nil => simp [findFirstOf] at h
  | cons x xs ih =>
    unfold findFirstOf at h
    by_cases hx : x = c
    · rw [if_pos hx] at h
      cases h
      subst hx
      simp
    · rw [if_neg hx] at h
      cases hr : findFirstOf c xs with
      | none => simp [hr] at h
      | some q =>
        rw [hr] at h
        simp at h
        subst h
        obtain ⟨h1, h2, h3⟩ := ih hr
        refine ⟨by simp [h1], ?_, ?_⟩
        · simp only [List.take_succ_cons, List.drop_succ_cons, List.cons_append]
          rw [← h2]
        · simp only [List.take_succ_cons, List.mem_cons, not_or]
          exact ⟨fun e => hx e.symm, h3⟩

theorem findFirstOf_append {c : Char} (key v : U8String) (h : c ∉ key) :
    findFirstOf c (key ++ c :: v) = some key.length := by
  induction key with
  | nil => simp [findFirstOf]
  | cons x xs ih =>
    have hx : x ≠ c := fun e => h (e ▸ List.mem_cons_self _ _)
    simp [findFirstOf, hx, ih (fun hm => h (List.mem_cons_of_mem _ hm))]

theorem lookup_extra {key : U8String} {e : DistillerParam}
    (h : paramMap.lookup ('i' :: key) = some e) :
    (key = "defaultpanosestyle".toList ∧ e = ("defaultpanosestyle".toList, [])) ∨
      (key = "panosedb".toList ∧ e = ("panose".toList, [])) := by
  have hmem := mem_of_lookup h
  simp [paramMap] at hmem
  rcases hmem with ⟨h1, h2⟩ | ⟨h1, h2⟩
  · left
    exact ⟨by simp [h1], by simp [h2]⟩
  · right
    exact ⟨by simp [h1], by simp [h2]⟩

theorem pushPathParam_of_lookup_none {fs : FileSystem} {line : U8String} {len need : Nat}
    {m : ParamMap} {params : DistillerParams} (h : m.lookup (line.take need) = none) :
    pushPathParam fs line len need m params = .ok (false, params) := by
  unfold pushPathParam
  split
  · rfl
  · dsimp only
    rw [h]

theorem pushPathParam_of_absolute {fs : FileSystem} {line : U8String} {len need : Nat}
    {m : ParamMap} {params : DistillerParams} {e : DistillerParam} (hlen : need ≤ len)
    (h : m.lookup (line.take need) = some e) (habs : fs.isRelative (line.drop need) = false) :
    pushPathParam fs line len need m params = .ok (true, params ++ [(e.1, line.drop need)]) := by
  unfold pushPathParam
  rw [if_neg (by omega)]
  dsimp only
  rw [h]
  simp [habs]

theorem extraOptionsBody_eq (fs : FileSystem) (st : Bool × DistillerParams) (token : U8String)
    (habs : ∀ v, token = "panosedb=".toList ++ v → fs.isRelative v = false) :
    extraOptionsBody fs 'i' paramMap st token =
      .ok (st.1 || (extraOptionResolved token).isSome,
        st.2 ++ (extraOptionResolved token).toList) := by
  unfold extraOptionsBody extraOptionResolved
  cases hf : findFirstOf '=' token with
  | none => simp
  | some pos =>
    obtain ⟨hklen, hsplit, _⟩ := findFirstOf_some hf
    have herase : token.eraseIdx pos = token.take pos ++ token.drop (pos + 1) :=
      List.eraseIdx_eq_take_drop_succ _ _
    generalize hkey : token.take pos = key at *
    generalize hval : token.drop (pos + 1) = v at *
    have htake : ('i' :: (key ++ v)).take (pos + 1) = 'i' :: key := by
      rw [List.take_succ_cons, ← hklen, List.take_left']
      rfl
    have hdrop : ('i' :: (key ++ v)).drop (pos + 1) = v := by
      rw [List.drop_succ_cons, ← hklen, List.drop_left']
      rfl
    have hlen : pos + 1 ≤ ('i' :: (key ++ v)).length := by
      simp [hklen]
    dsimp only
    rw [herase, hkey, hval]
    cases hl : paramMap.lookup ('i' :: key) with
    | none =>
      have h1 : pushParam ('i' :: (key ++ v)) ('i' :: (key ++ v)).length (pos + 1) paramMap st.2 =
          (false, st.2) := pushParam_of_lookup_none (by rw [htake]; exact hl)
      have h2 : pushPathParam fs ('i' :: (key ++ v)) ('i' :: (key ++ v)).length (pos + 1)
          paramMap st.2 = .ok (false, st.2) :=
        pushPathParam_of_lookup_none (by rw [htake]; exact hl)
      rw [h1, h2]
      simp
    | some e =>
      rcases lookup_extra hl with ⟨hk, he⟩ | ⟨hk, he⟩
      · subst he
        have h1 : pushParam ('i' :: (key ++ v)) ('i' :: (key ++ v)).length (pos + 1) paramMap
            st.2 = (true, st.2 ++ [("defaultpanosestyle".toList, v)]) := by
          rw [pushParam_of_lookup_free (k := "defaultpanosestyle".toList) hlen
            (by rw [htake]; exact hl), hdrop]
        have hpre : "ipanosedb".toList.isPrefixOf ('i' :: (key ++ v)) = false := by
          rw [hk]
          rfl
        rw [h1, hpre]
        simp
      · subst he
        have hrel : fs.isRelative v = false := by
          apply habs
          rw [hsplit, hk]
          rfl
        have h2 : pushPathParam fs ('i' :: (key ++ v)) ('i' :: (key ++ v)).length (pos + 1)
            paramMap st.2 = .ok (true, st.2 ++ [("panose".toList, v)]) := by
          rw [pushPathParam_of_absolute hlen (by rw [htake]; exact hl) (by rw [hdrop]; exact hrel),
            hdrop]
        have hpre : "ipanosedb".toList.isPrefixOf ('i' :: (key ++ v)) = true := by
          rw [hk]
          simp
        rw [h2, hpre]
        simp

theorem foldlM_extraOptionsBody (fs : FileSystem) (toks : List U8String)
    (st : Bool × DistillerParams)
    (habs : ∀ t ∈ toks, ∀ v, t = "panosedb=".toList ++ v → fs.isRelative v = false) :
    toks.foldlM (extraOptionsBody fs 'i' paramMap) st =
      .ok (st.1 || !(toks.filterMap extraOptionResolved).isEmpty,
        st.2 ++ toks.filterMap extraOptionResolved) := by
  induction toks generalizing st with
  | nil => simp [pure, Except.pure]
  | cons t ts ih =>
    rw [List.foldlM_cons, extraOptionsBody_eq fs st t (habs t (List.mem_cons_self _ _))]
    show ts.foldlM (extraOptionsBody fs 'i' paramMap) _ = _
    rw [ih _ (fun t' ht' => habs t' (List.mem_cons_of_mem _ ht'))]
    cases hr : extraOptionResolved t with
    | none => simp [List.filterMap_cons, hr]
    | some e => simp [List.filterMap_cons, hr]

theorem getlineTokens_append (t rest acc : List Char) (h : ';' ∉ t) :
    getlineTokens (t ++ rest) acc = getlineTokens rest (t.reverse ++ acc) := by
  induction t generalizing acc with
  | nil => rfl
  | cons x xs ih =>
    have hx : x ≠ ';' := fun e => h (e ▸ List.mem_cons_self _ _)
    rw [List.cons_append, getlineTokens, if_neg hx, ih _ (fun hm => h (List.mem_cons_of_mem _ hm))]
    simp

theorem getlineTokens_intercalate (toks : List U8String) (h : ∀ t ∈ toks, ';' ∉ t) :
    getlineTokens (List.intercalate [';'] toks) [] =
      if toks.getLast? = some [] then toks.dropLast else toks := by
  induction toks with
  | nil => rfl
  | cons t ts ih =>
    cases ts with
    | nil =>
      have h1 : List.intercalate [';'] [t] = t ++ [] := by simp [List.intercalate]
      rw [h1, getlineTokens_append t [] [] (h t (List.mem_cons_self _ _))]
      by_cases ht : t = []
      · subst ht
        rfl
      · simp [getlineTokens, ht]
    | cons t' ts' =>
      have h1 : List.intercalate [';'] (t :: t' :: ts') =
          t ++ ';' :: List.intercalate [';'] (t' :: ts') := by
        simp [List.intercalate]
      rw [h1, getlineTokens_append t _ [] (h t (List.mem_cons_self _ _)), getlineTokens,
        if_pos rfl, ih (fun x hx => h x (List.mem_cons_of_mem _ hx))]
      by_cases hlast : (t' :: ts').getLast? = some []
      · simp [hlast, List.getLast?_cons_cons]
      · simp [hlast, List.getLast?_cons_cons]

theorem extraOptionResolved_nil : extraOptionResolved [] = none := rfl

theorem filterMap_getlineTokens (toks : List U8String) (h : ∀ t ∈ toks, ';' ∉ t) :
    (getlineTokens (List.intercalate [';'] toks) []).filterMap extraOptionResolved =
      toks.filterMap extraOptionResolved := by
  rw [getlineTokens_intercalate toks h]
  split
  · rename_i hlast
    obtain ⟨l, hl⟩ : ∃ l, toks = l ++ [[]] := by
      rw [List.getLast?_eq_some_iff] at hlast
      exact hlast
    subst hl
    simp [extraOptionResolved_nil]
  · rfl

/-- C9. For an `-i` body made of the semicolon-separated tokens `toks` (a `panosedb=`
value being an absolute path), `processExtraOptions` appends, in token order, the
parameter of each token `key=value` whose synthetic directive `i` + key is a table
token, and nothing for the other tokens; it returns true exactly when a token was
resolved.  `defaultpanosestyle=v` gives (defaultpanosestyle, v), `panosedb=v` gives
(panose, v), a token without `=` gives nothing. -/
theorem processExtraOptions_tokens (fs : FileSystem) (toks : List U8String) (len : Nat)
    (params : DistillerParams) (hsemi : ∀ t ∈ toks, ';' ∉ t)
    (habs : ∀ v, "panosedb=".toList ++ v ∈ toks → fs.isRelative v = false) :
    processExtraOptions fs ('i' :: List.intercalate [';'] toks) len paramMap params =
        .ok (!(toks.filterMap extraOptionResolved).isEmpty,
          params ++ toks.filterMap extraOptionResolved) ∧
    (∀ v, extraOptionResolved ("defaultpanosestyle=".toList ++ v) =
      some ("defaultpanosestyle".toList, v)) ∧
    (∀ v, extraOptionResolved ("panosedb=".toList ++ v) = some ("panose".toList, v)) ∧
    (∀ t, '=' ∉ t → extraOptionResolved t = none) := by
  refine ⟨?_, ?_, ?_, ?_⟩
  · have hsub : ∀ t ∈ getlineTokens (List.intercalate [';'] toks) [], t ∈ toks := by
      rw [getlineTokens_intercalate toks hsemi]
      split
      · intro t ht
        exact List.dropLast_subset _ ht
      · intro t ht
        exact ht
    unfold processExtraOptions
    show (getlineTokens (List.intercalate [';'] toks) []).foldlM
      (extraOptionsBody fs 'i' paramMap) (false, params) = _
    rw [foldlM_extraOptionsBody fs _ _ (fun t ht v hv => habs v (hv ▸ hsub t ht)),
      filterMap_getlineTokens toks hsemi]
    simp
  · intro v
    have hf : findFirstOf '=' ("defaultpanosestyle=".toList ++ v) = some 18 :=
      findFirstOf_append "defaultpanosestyle".toList v (by decide)
    unfold extraOptionResolved
    rw [hf]
    have hl : paramMap.lookup ('i' :: ("defaultpanosestyle=".toList ++ v).take 18) =
        some ("defaultpanosestyle".toList, []) := by
      have : ("defaultpanosestyle=".toList ++ v).take 18 = "defaultpanosestyle".toList := by simp
      rw [this]
      decide
    simp only [hl]
    simp
  · intro v
    have hf : findFirstOf '=' ("panosedb=".toList ++ v) = some 8 :=
      findFirstOf_append "panosedb".toList v (by decide)
    unfold extraOptionResolved
    rw [hf]
    have hl : paramMap.lookup ('i' :: ("panosedb=".toList ++ v).take 8) =
        some ("panose".toList, []) := by
      have : ("panosedb=".toList ++ v).take 8 = "panosedb".toList := by simp
      rw [this]
      decide
    simp only [hl]
    simp
  · intro t ht
    unfold extraOptionResolved
    rw [findFirstOf_none ht]

theorem processExtraOptions_tokens_witness :
    processExtraOptions emptyPosixFS "ipanosedb=/some/path;defaultpanosestyle=Arial".toList 46
        paramMap [] =
      .ok (true, [("panose".toList, "/some/path".toList),
        ("defaultpanosestyle".toList, "Arial".toList)]) :=
  (processExtraOptions_tokens emptyPosixFS
    ["panosedb=/some/path".toList, "defaultpanosestyle=Arial".toList] 46 [] (by decide)
    (by
      intro v hv
      have hv' : v = "/some/path".toList := by simpa using hv
      rw [hv']
      decide)).1

/-! ## Font options -/

/-- C11. For every accumulated list `L` and remainder `r`: the directive `fr` + r issues
one `setParameter` per entry of `L`, in list order, then `removeFont r`, empties the
accumulator and reports success; the directive `fa` + r, when the wildcard resolver
returns, issues the same `setParameter` calls and then one `addFonts` with the resolved
file set, and empties the accumulator.  The font action is the last call, after the
flush. -/
theorem processFontOptions_flush (fs : FileSystem) (r : U8String) (len : Nat)
    (L : DistillerParams) (calls : List EngineCall) :
    processFontOptions fs ("fr".toList ++ r) len paramMap L calls =
      .ok (true, [], calls ++ L.map (fun p => EngineCall.setParameter p.1 p.2) ++
        [EngineCall.removeFont r]) ∧
    processFontOptions fs ("fa".toList ++ r) len paramMap L calls =
      match getFileNames fs r [] with
      | .error e => .error e
      | .ok res => .ok (true, [], calls ++ L.map (fun p => EngineCall.setParameter p.1 p.2) ++
          [EngineCall.addFonts res.2]) := by
  constructor
  · have hc : ("fr".toList ++ r).getD 1 NUL = 'r' := rfl
    have hd : ("fr".toList ++ r).drop 2 = r := rfl
    unfold processFontOptions
    dsimp only
    rw [hc, hd, if_neg (by decide), if_pos rfl]
    rfl
  · have hc : ("fa".toList ++ r).getD 1 NUL = 'a' := rfl
    have hd : ("fa".toList ++ r).drop 2 = r := rfl
    unfold processFontOptions
    dsimp only
    rw [hc, hd, if_neg (by decide), if_neg (by decide), if_pos rfl]
    cases getFileNames fs r [] with
    | error e => rfl
    | ok res => rfl

/-- C12 (the code on two inputs after one directive). The loop of `main` does not clear
`distillerParams` after the flush of a conversion: after `-dz` and `a.ps` the
accumulator still holds compresspages=true, and the conversion of `b.ps` passes it to
`setParameter` a second time. -/
theorem runMain_accumulator_kept (fs : FileSystem) :
    (runMain fs ["-dz".toList, "a.ps".toList]).1.distillerParams =
      [("compresspages".toList, "true".toList)] ∧
    (runMain fs ["-dz".toList, "a.ps".toList, "b.ps".toList]).1.calls =
      [EngineCall.setParameter "compresspages".toList "true".toList,
        EngineCall.distill "a.ps".toList "a.ps.pdf".toList,
        EngineCall.setParameter "compresspages".toList "true".toList,
        EngineCall.distill "b.ps".toList "a.ps.pdf".toList] := by
  constructor
  · rfl
  · rfl

/-! ## Path-valued parameters -/

theorem pushPathParam_of_canonical {fs : FileSystem} {line : U8String} {len need : Nat}
    {m : ParamMap} {params : DistillerParams} {e : DistillerParam} {c : U8String}
    (hlen : need ≤ len) (h : m.lookup (line.take need) = some e)
    (hrel : fs.isRelative (line.drop need) = true) (hcan : fs.canonical (line.drop need) = some c) :
    pushPathParam fs line len need m params = .ok (true, params ++ [(e.1, c)]) := by
  unfold pushPathParam
  rw [if_neg (by omega)]
  dsimp only
  rw [h]
  simp [hrel, hcan]

theorem pushPathParam_of_canonical_none {fs : FileSystem} {line : U8String} {len need : Nat}
    {m : ParamMap} {params : DistillerParams} {e : DistillerParam}
    (hlen : need ≤ len) (h : m.lookup (line.take need) = some e)
    (hrel : fs.isRelative (line.drop need) = true) (hcan : fs.canonical (line.drop need) = none) :
    pushPathParam fs line len need m params = .error Failure.filesystemError := by
  unfold pushPathParam
  rw [if_neg (by omega)]
  dsimp only
  rw [h]
  simp [hrel, hcan]

/-- C13. For every table token t and path text p, `pushPathParam` on t + p with need =
|t| returns true and appends exactly one parameter with the key of t: its value is p
itself when p is absolute, and the canonical form of p when p is relative and
`canonical` succeeds.  When the first `need` bytes are not a table token it returns
false, appends nothing, and the result is the same for every file system. -/
theorem pushPathParam_resolves (fs : FileSystem) (t k v p : U8String)
    (hmem : (t, (k, v)) ∈ paramMap) (params : DistillerParams) :
    (fs.isRelative p = false →
      pushPathParam fs (t ++ p) (t.length + p.length) t.length paramMap params =
        .ok (true, params ++ [(k, p)])) ∧
    (∀ c, fs.isRelative p = true → fs.canonical p = some c →
      pushPathParam fs (t ++ p) (t.length + p.length) t.length paramMap params =
        .ok (true, params ++ [(k, c)])) ∧
    (∀ (line : U8String) (len need : Nat) (fs' : FileSystem),
      paramMap.lookup (line.take need) = none →
        pushPathParam fs line len need paramMap params = .ok (false, params) ∧
        pushPathParam fs' line len need paramMap params = .ok (false, params)) := by
  have hl : paramMap.lookup ((t ++ p).take t.length) = some (k, v) := by
    rw [List.take_left']
    · exact lookup_of_mem paramMap_keys_nodup hmem
    · rfl
  have hd : (t ++ p).drop t.length = p := List.drop_left' rfl
  refine ⟨?_, ?_, ?_⟩
  · intro hrel
    rw [pushPathParam_of_absolute (by omega) hl (by rw [hd]; exact hrel), hd]
  · intro c hrel hcan
    rw [pushPathParam_of_canonical (by omega) hl (by rw [hd]; exact hrel)
      (by rw [hd]; exact hcan)]
  · intro line len need fs' hnone
    exact ⟨pushPathParam_of_lookup_none hnone, pushPathParam_of_lookup_none hnone⟩

theorem pushPathParam_resolves_witness :
    pushPathParam fontsFS "Pf/usr/fonts".toList 12 2 paramMap [] =
        .ok (true, [("fontdevice".toList, "/usr/fonts".toList)]) ∧
      pushPathParam fontsFS "Prfonts".toList 7 2 paramMap [] =
        .ok (true, [("resourcedevice".toList, "/fonts".toList)]) ∧
      pushPathParam fontsFS "Pxfonts".toList 7 2 paramMap [] = .ok (false, []) :=
  ⟨(pushPathParam_resolves fontsFS "Pf".toList "fontdevice".toList [] "/usr/fonts".toList
      (by decide) []).1 (by decide),
    (pushPathParam_resolves fontsFS "Pr".toList "resourcedevice".toList [] "fonts".toList
      (by decide) []).2.1 "/fonts".toList (by decide) (by decide),
    ((pushPathParam_resolves fontsFS "Pr".toList "resourcedevice".toList [] "fonts".toList
      (by decide) []).2.2 "Pxfonts".toList 7 2 fontsFS (by decide)).1⟩

/-! ## A failing canonicalization -/

theorem mainLine_directive (fs : FileSystem) (line : U8String) (st : DriverState)
    (hlen : 1 < line.length) (hd : line.headD NUL = '-') :
    mainLine fs paramMap line st =
      dispatchDirective fs paramMap (line.drop 1) (line.length - 1) st := by
  have hne : line ≠ [] := by
    rintro rfl
    simp at hlen
  unfold mainLine
  rw [if_neg hne, if_pos ⟨hlen, hd⟩]

theorem mainLoop_of_error (fs : FileSystem) (line : U8String) (rest : List U8String)
    (st : DriverState) (e : Failure) (hlen : line.length < 1024)
    (h : mainLine fs paramMap line st = .error e) :
    mainLoop fs paramMap (line :: rest) st = (st, 1) := by
  unfold mainLoop
  rw [if_neg (by omega), h]

theorem mainLoop_of_dispatch_error (fs : FileSystem) (line : U8String)
    (rest : List U8String) (st : DriverState) (e : Failure) (hlen : line.length < 1024)
    (h1 : 1 < line.length) (hd : line.headD NUL = '-')
    (h : dispatchDirective fs paramMap (line.drop 1) (line.length - 1) st = .error e) :
    mainLoop fs paramMap (line :: rest) st = (st, 1) :=
  mainLoop_of_error fs line rest st e hlen (by rw [mainLine_directive fs line st h1 hd]; exact h)

theorem dispatch_P_error (fs : FileSystem) (pline : U8String) (len : Nat) (st : DriverState)
    (e : Failure) (h0 : pline.headD NUL = 'P')
    (hp : pushPathParam fs pline len 2 paramMap st.distillerParams = .error e) :
    dispatchDirective fs paramMap pline len st = .error e := by
  unfold dispatchDirective
  dsimp only
  rw [h0, if_neg (by decide), if_neg (by decide), if_neg (by decide), if_neg (by decide),
    if_pos rfl, hp]

theorem dispatch_fp_error (fs : FileSystem) (pline : U8String) (len : Nat) (st : DriverState)
    (e : Failure) (h0 : pline.headD NUL = 'f') (h1 : pline.getD 1 NUL = 'p')
    (hp : pushPathParam fs pline len 2 paramMap st.distillerParams = .error e) :
    dispatchDirective fs paramMap pline len st = .error e := by
  have hf : processFontOptions fs pline len paramMap st.distillerParams st.calls = .error e := by
    unfold processFontOptions
    dsimp only
    rw [h1, if_pos rfl, hp]
  unfold dispatchDirective
  dsimp only
  rw [h0, if_neg (by decide), if_pos rfl, hf]

theorem dispatch_Jf_error (fs : FileSystem) (pline : U8String) (len : Nat) (st : DriverState)
    (e : Failure) (h0 : pline.headD NUL = 'J') (h3 : pline.getD 3 NUL = 'f')
    (hp : pushPathParam fs pline len 4 paramMap st.distillerParams = .error e) :
    dispatchDirective fs paramMap pline len st = .error e := by
  have hf : processPrologEpilogOptions fs pline len paramMap st.distillerParams = .error e := by
    unfold processPrologEpilogOptions
    rw [if_pos h3, hp]
  unfold dispatchDirective
  dsimp only
  rw [h0, if_neg (by decide), if_neg (by decide), if_neg (by decide), if_pos rfl, hf]

theorem dispatch_i_error (fs : FileSystem) (pline : U8String) (len : Nat) (st : DriverState)
    (e : Failure) (h0 : pline.headD NUL = 'i')
    (hp : processExtraOptions fs pline len paramMap st.distillerParams = .error e) :
    dispatchDirective fs paramMap pline len st = .error e := by
  unfold dispatchDirective
  dsimp only
  rw [h0, if_neg (by decide), if_neg (by decide), if_pos rfl, hp]

theorem processExtraOptions_panosedb_error (fs : FileSystem) (p : U8String) (len : Nat)
    (params : DistillerParams) (hrel : fs.isRelative p = true) (hcan : fs.canonical p = none)
    (hsemi : ';' ∉ p) :
    processExtraOptions fs ("ipanosedb=".toList ++ p) len paramMap params =
      .error Failure.filesystemError := by
  have htok : getlineTokens ("panosedb=".toList ++ p) [] = ["panosedb=".toList ++ p] := by
    have h := getlineTokens_append ("panosedb=".toList ++ p) [] []
      (by
        intro hm
        rcases List.mem_append.1 hm with h1 | h1
        · exact absurd h1 (by decide)
        · exact hsemi h1)
    rw [List.append_nil] at h
    rw [h]
    simp [getlineTokens]
  have hf : findFirstOf '=' ("panosedb=".toList ++ p) = some 8 :=
    findFirstOf_append "panosedb".toList p (by decide)
  have hpp : pushPathParam fs ("ipanosedb".toList ++ p) ("ipanosedb".toList ++ p).length 9
      paramMap params = .error Failure.filesystemError :=
    pushPathParam_of_canonical_none (e := ("panose".toList, []))
      (by simp) rfl hrel hcan
  have hbody : extraOptionsBody fs 'i' paramMap (false, params) ("panosedb=".toList ++ p) =
      .error Failure.filesystemError := by
    unfold extraOptionsBody
    rw [hf]
    have he : ("panosedb=".toList ++ p).eraseIdx 8 = "panosedb".toList ++ p := rfl
    have hpre : "ipanosedb".toList.isPrefixOf ('i' :: ("panosedb".toList ++ p)) = true := by
      simp
    dsimp only
    rw [he, hpre]
    have hpp' : pushPathParam fs ('i' :: ("panosedb".toList ++ p))
        ('i' :: ("panosedb".toList ++ p)).length (8 + 1) paramMap params =
        .error Failure.filesystemError := hpp
    rw [if_pos rfl, hpp']
  unfold processExtraOptions
  show (getlineTokens ("panosedb=".toList ++ p) []).foldlM
    (extraOptionsBody fs 'i' paramMap) (false, params) = _
  rw [htok, List.foldlM_cons, hbody]
  rfl

/-- C14 (the claim fails). With the path directive `-Pfmissing`, whose relative path the
canonicalizer cannot find, the run does not go on to the next line: it ends with exit
code 1 and without the conversion of `a.ps`, unlike the run on the following lines
alone. -/
theorem runMain_canonical_failure_stops :
    runMain emptyPosixFS ["-Pfmissing".toList, "a.ps".toList] = (initialState, 1) ∧
    conversions (runMain emptyPosixFS ["-Pfmissing".toList, "a.ps".toList]).1.calls = [] ∧
    runMain emptyPosixFS ["-Pfmissing".toList, "a.ps".toList] ≠
      runMain emptyPosixFS ["a.ps".toList] := by
  decide

/-- C14 (amended). When a path-valued directive (`-Pf`, `-Pr`, `-fp`, `-Jedf`, `-Jpdf`,
or `-i` with the single option `panosedb=`) names a relative path that the canonicalizer
cannot find, no parameter is appended and the run ends at that line with exit code 1:
the lines after it are not handled. -/
theorem mainLoop_canonical_failure (fs : FileSystem) (p : U8String) (rest : List U8String)
    (st : DriverState) (hrel : fs.isRelative p = true) (hcan : fs.canonical p = none) :
    (∀ d ∈ ["-Pf".toList, "-Pr".toList, "-fp".toList, "-Jedf".toList, "-Jpdf".toList],
      (d ++ p).length < 1024 → mainLoop fs paramMap ((d ++ p) :: rest) st = (st, 1)) ∧
    (';' ∉ p → ("-ipanosedb=".toList ++ p).length < 1024 →
      mainLoop fs paramMap (("-ipanosedb=".toList ++ p) :: rest) st = (st, 1)) := by
  constructor
  · intro d hd hlen
    simp only [List.mem_cons, List.mem_singleton, List.not_mem_nil, or_false] at hd
    rcases hd with rfl | rfl | rfl | rfl | rfl
    · refine mainLoop_of_dispatch_error fs _ rest st Failure.filesystemError hlen (by simp) rfl ?_
      exact dispatch_P_error fs _ _ st _ rfl
        (pushPathParam_of_canonical_none (e := ("fontdevice".toList, [])) (by simp) rfl hrel hcan)
    · refine mainLoop_of_dispatch_error fs _ rest st Failure.filesystemError hlen (by simp) rfl ?_
      exact dispatch_P_error fs _ _ st _ rfl
        (pushPathParam_of_canonical_none (e := ("resourcedevice".toList, [])) (by simp) rfl
          hrel hcan)
    · refine mainLoop_of_dispatch_error fs _ rest st Failure.filesystemError hlen (by simp) rfl ?_
      exact dispatch_fp_error fs _ _ st _ rfl rfl
        (pushPathParam_of_canonical_none (e := ("fontdevice".toList, [])) (by simp) rfl hrel hcan)
    · refine mainLoop_of_dispatch_error fs _ rest st Failure.filesystemError hlen (by simp) rfl ?_
      exact dispatch_Jf_error fs _ _ st _ rfl rfl
        (pushPathParam_of_canonical_none (e := ("epilogfile".toList, [])) (by simp) rfl hrel hcan)
    · refine mainLoop_of_dispatch_error fs _ rest st Failure.filesystemError hlen (by simp) rfl ?_
      exact dispatch_Jf_error fs _ _ st _ rfl rfl
        (pushPathParam_of_canonical_none (e := ("prologfile".toList, [])) (by simp) rfl hrel hcan)
  · intro hsemi hlen
    refine mainLoop_of_dispatch_error fs _ rest st Failure.filesystemError hlen (by simp) rfl ?_
    exact dispatch_i_error fs _ _ st _ rfl
      (processExtraOptions_panosedb_error fs p _ st.distillerParams hrel hcan hsemi)

theorem mainLoop_canonical_failure_witness :
    mainLoop emptyPosixFS paramMap ["-Pfmissing".toList, "a.ps".toList] initialState =
        (initialState, 1) ∧
      mainLoop emptyPosixFS paramMap ["-ipanosedb=missing".toList, "a.ps".toList] initialState =
        (initialState, 1) :=
  have h := mainLoop_canonical_failure emptyPosixFS "missing".toList ["a.ps".toList]
    initialState (by decide) (by decide)
  ⟨h.1 "-Pf".toList (by decide) (by decide), h.2 (by decide) (by decide)⟩

/-! ## The wildcard path resolver -/

theorem foldl_collect (pattern : U8String) (entries : List DirEntry) (acc : List U8String) :
    entries.foldl
        (fun acc ip =>
          if !ip.isDirectory then
            if patternMatch pattern ip.filename then acc ++ [ip.path] else acc
          else acc)
        acc =
      acc ++ (entries.filter
        (fun ip => !ip.isDirectory && patternMatch pattern ip.filename)).map (·.path) := by
  induction entries generalizing acc with
  | nil => simp
  | cons ip rest ih =>
    rw [List.foldl_cons, ih]
    cases hd : ip.isDirectory <;> cases hm : patternMatch pattern ip.filename <;>
      simp [List.filter_cons, hd, hm]

theorem collectFileNames_directory (fs : FileSystem) (p pattern : U8String)
    (fileNames : List U8String) (h : fs.isDirectory p = true) :
    collectFileNames fs p pattern fileNames =
      fileNames ++ ((fs.recursiveDirectoryIterator p).filter
        (fun ip => !ip.isDirectory && patternMatch pattern ip.filename)).map (·.path) := by
  unfold collectFileNames
  rw [if_pos h]
  exact foldl_collect pattern _ fileNames

/-- C15. When the given path does not exist and has a parent path: if the parent exists
(its canonical form `cp` is a directory) `getFileNames` returns true and adds, in
traversal order, the full paths of the entries under `cp` that are not directories and
whose file name satisfies `patternMatch` against the text after the last separator of
the given path, so with no matching name it adds nothing and still returns true; if
the parent does not exist it returns false and adds nothing. -/
theorem getFileNames_wildcard (fs : FileSystem) (inPath : U8String)
    (fileNames : List U8String) (hne : fs.pathExists inPath = false)
    (hpar : fs.hasParentPath inPath = true) :
    (∀ cp pos, fs.pathExists (fs.parentPath inPath) = true →
      fs.canonical (fs.parentPath inPath) = some cp → fs.isDirectory cp = true →
      findLastOf fs.preferredSeparator inPath = some pos →
        getFileNames fs inPath fileNames =
          .ok (true, fileNames ++ ((fs.recursiveDirectoryIterator cp).filter
            (fun ip => !ip.isDirectory &&
              patternMatch (inPath.drop (pos + 1)) ip.filename)).map (·.path)) ∧
        ((∀ ip ∈ fs.recursiveDirectoryIterator cp, ip.isDirectory = false →
            patternMatch (inPath.drop (pos + 1)) ip.filename = false) →
          getFileNames fs inPath fileNames = .ok (true, fileNames))) ∧
    (fs.pathExists (fs.parentPath inPath) = false →
      getFileNames fs inPath fileNames = .ok (false, fileNames)) := by
  constructor
  · intro cp pos hpe hcan hdir hsep
    have hmain : getFileNames fs inPath fileNames =
        .ok (true, fileNames ++ ((fs.recursiveDirectoryIterator cp).filter
          (fun ip => !ip.isDirectory &&
            patternMatch (inPath.drop (pos + 1)) ip.filename)).map (·.path)) := by
      unfold getFileNames wildcardFileNames
      simp only [hne, hpar, hpe, hcan, hsep, Bool.not_false, Bool.not_true, if_true,
        Bool.false_eq_true, if_false]
      rw [collectFileNames_directory fs cp _ fileNames hdir]
    refine ⟨hmain, ?_⟩
    intro hnone
    rw [hmain]
    have hf : (fs.recursiveDirectoryIterator cp).filter
        (fun ip => !ip.isDirectory && patternMatch (inPath.drop (pos + 1)) ip.filename) = [] := by
      rw [List.filter_eq_nil_iff]
      intro ip hip
      cases hd : ip.isDirectory
      · simp [hnone ip hip hd]
      · simp
    rw [hf]
    simp
  · intro hpe
    unfold getFileNames
    simp [hne, hpar, hpe]

theorem getFileNames_wildcard_witness :
    getFileNames fontsFS "/fonts/*.otf".toList [] =
        .ok (true, ["/fonts/a.otf".toList, "/fonts/sub/b.otf".toList]) ∧
      getFileNames fontsFS "/nodir/*.otf".toList [] = .ok (false, []) := by
  have h1 := ((getFileNames_wildcard fontsFS "/fonts/*.otf".toList [] (by decide)
    (by decide)).1 "/fonts".toList 6 (by decide) (by decide) (by decide) (by decide)).1
  have h2 := (getFileNames_wildcard fontsFS "/nodir/*.otf".toList [] (by decide)
    (by decide)).2 (by decide)
  refine ⟨?_, h2⟩
  rw [h1]
  simp [fontsFS, patternMatch, NUL]

/-! ## Prolog and epilog options -/

theorem lookup_four_none {key : U8String} (hlen : key.length = 4)
    (hkey : key ∉ ["Jedc".toList, "Jedf".toList, "Jpdc".toList, "Jpdf".toList]) :
    paramMap.lookup key = none := by
  cases h : paramMap.lookup key with
  | none => rfl
  | some e =>
    exfalso
    apply hkey
    have hmem : key ∈ paramMap.map Prod.fst := List.mem_map.2 ⟨(key, e), mem_of_lookup h, rfl⟩
    have hfour : (paramMap.map Prod.fst).filter (fun k => k.length = 4) =
        ["Jedc".toList, "Jedf".toList, "Jpdc".toList, "Jpdf".toList] := by decide
    rw [← hfour]
    exact List.mem_filter.2 ⟨hmem, by simpa using hlen⟩

theorem pushParam_short {line : U8String} {len need : Nat} {m : ParamMap}
    {params : DistillerParams} (h : len < need) :
    pushParam line len need m params = (false, params) := by
  unfold pushParam
  rw [if_pos h]

theorem pushPathParam_short {fs : FileSystem} {line : U8String} {len need : Nat}
    {m : ParamMap} {params : DistillerParams} (h : len < need) :
    pushPathParam fs line len need m params = .ok (false, params) := by
  unfold pushPathParam
  rw [if_pos h]

/-- C16. For every text t, `processPrologEpilogOptions` on `Jedc` + t returns true and
appends exactly (epilogcommand, t), and on `Jpdc` + t exactly (prologcommand, t).  A
line shorter than four bytes, or whose first four bytes are none of `Jedc`, `Jedf`,
`Jpdc`, `Jpdf`, returns false and appends nothing; for a short line this does not
depend on the byte read at index 3, as both parsers reject it. -/
theorem processPrologEpilogOptions_literal (fs : FileSystem) (t : U8String)
    (params : DistillerParams) :
    processPrologEpilogOptions fs ("Jedc".toList ++ t) (4 + t.length) paramMap params =
      .ok (true, params ++ [("epilogcommand".toList, t)]) ∧
    processPrologEpilogOptions fs ("Jpdc".toList ++ t) (4 + t.length) paramMap params =
      .ok (true, params ++ [("prologcommand".toList, t)]) ∧
    (∀ line : U8String,
      (line.length < 4 ∨
        line.take 4 ∉ ["Jedc".toList, "Jedf".toList, "Jpdc".toList, "Jpdf".toList]) →
      processPrologEpilogOptions fs line line.length paramMap params = .ok (false, params)) ∧
    (∀ (line : U8String) (len : Nat), len < 4 →
      pushPathParam fs line len 4 paramMap params = .ok (false, params) ∧
      pushParam line len 4 paramMap params = (false, params)) := by
  refine ⟨?_, ?_, ?_, ?_⟩
  · have hc : ¬ (("Jedc".toList ++ t).getD 3 NUL = 'f') := by
      show ¬ ('c' = 'f')
      decide
    have hlk : paramMap.lookup (("Jedc".toList ++ t).take 4) = some ("epilogcommand".toList, []) := rfl
    have hp : pushParam ("Jedc".toList ++ t) (4 + t.length) 4 paramMap params =
        (true, params ++ [("epilogcommand".toList, t)]) :=
      pushParam_of_lookup_free (by omega) hlk
    unfold processPrologEpilogOptions
    rw [if_neg hc, hp]
  · have hc : ¬ (("Jpdc".toList ++ t).getD 3 NUL = 'f') := by
      show ¬ ('c' = 'f')
      decide
    have hlk : paramMap.lookup (("Jpdc".toList ++ t).take 4) = some ("prologcommand".toList, []) := rfl
    have hp : pushParam ("Jpdc".toList ++ t) (4 + t.length) 4 paramMap params =
        (true, params ++ [("prologcommand".toList, t)]) :=
      pushParam_of_lookup_free (by omega) hlk
    unfold processPrologEpilogOptions
    rw [if_neg hc, hp]
  · intro line hline
    have h1 : pushParam line line.length 4 paramMap params = (false, params) := by
      by_cases hlen : line.length < 4
      · exact pushParam_short hlen
      · rcases hline with h | h
        · exact absurd h hlen
        · exact pushParam_of_lookup_none
            (lookup_four_none (by rw [List.length_take]; omega) h)
    have h2 : pushPathParam fs line line.length 4 paramMap params = .ok (false, params) := by
      by_cases hlen : line.length < 4
      · exact pushPathParam_short hlen
      · rcases hline with h | h
        · exact absurd h hlen
        · exact pushPathParam_of_lookup_none
            (lookup_four_none (by rw [List.length_take]; omega) h)
    unfold processPrologEpilogOptions
    split
    · exact h2
    · rw [h1]
  · intro line len hlen
    exact ⟨pushPathParam_short hlen, pushParam_short hlen⟩

theorem processPrologEpilogOptions_literal_witness :
    processPrologEpilogOptions emptyPosixFS "Jedcshowpage".toList 12 paramMap [] =
        .ok (true, [("epilogcommand".toList, "showpage".toList)]) ∧
      processPrologEpilogOptions emptyPosixFS "Jpdc1 setlinewidth".toList 18 paramMap [] =
        .ok (true, [("prologcommand".toList, "1 setlinewidth".toList)]) ∧
      processPrologEpilogOptions emptyPosixFS "Jxdcshowpage".toList 12 paramMap [] =
        .ok (false, []) ∧
      processPrologEpilogOptions emptyPosixFS "Jed".toList 3 paramMap [] = .ok (false, []) :=
  ⟨(processPrologEpilogOptions_literal emptyPosixFS "showpage".toList []).1,
    (processPrologEpilogOptions_literal emptyPosixFS "1 setlinewidth".toList []).2.1,
    (processPrologEpilogOptions_literal emptyPosixFS [] []).2.2.1 "Jxdcshowpage".toList
      (Or.inr (by decide)),
    (processPrologEpilogOptions_literal emptyPosixFS [] []).2.2.1 "Jed".toList
      (Or.inl (by decide))⟩

/-! ## `-fp` and `-Pf` -/

/-- C17. For every path text p and file system, the font directive `fp` + p handled by
`processFontOptions` and the path directive `Pf` + p handled by `pushPathParam` with a
2-byte prefix give the same result: the flag true and the accumulated parameters
followed by the single parameter (fontdevice, resolved p), or the same failure.
Neither makes an engine call, and the switch of `main` leaves the same state for both. -/
theorem processFontOptions_fp_eq_Pf (fs : FileSystem) (p : U8String)
    (params : DistillerParams) (calls : List EngineCall) :
    processFontOptions fs ("fp".toList ++ p) (2 + p.length) paramMap params calls =
      (match pushPathParam fs ("Pf".toList ++ p) (2 + p.length) 2 paramMap params with
      | .error e => .error e
      | .ok r => .ok (r.1, r.2, calls)) ∧
    pushPathParam fs ("Pf".toList ++ p) (2 + p.length) 2 paramMap params =
      (if fs.isRelative p then
        match fs.canonical p with
        | none => .error Failure.filesystemError
        | some c => .ok (true, params ++ [("fontdevice".toList, c)])
      else .ok (true, params ++ [("fontdevice".toList, p)])) ∧
    ∀ st : DriverState,
      dispatchDirective fs paramMap ("fp".toList ++ p) (2 + p.length) st =
        dispatchDirective fs paramMap ("Pf".toList ++ p) (2 + p.length) st := by
  have hsame : ∀ ps : DistillerParams,
      pushPathParam fs ("fp".toList ++ p) (2 + p.length) 2 paramMap ps =
        pushPathParam fs ("Pf".toList ++ p) (2 + p.length) 2 paramMap ps := by
    intro ps
    have h1 : paramMap.lookup (("fp".toList ++ p).take 2) = some ("fontdevice".toList, []) := rfl
    have h2 : paramMap.lookup (("Pf".toList ++ p).take 2) = some ("fontdevice".toList, []) := rfl
    have d1 : ("fp".toList ++ p).drop 2 = p := rfl
    have d2 : ("Pf".toList ++ p).drop 2 = p := rfl
    unfold pushPathParam
    dsimp only
    rw [h1, h2, d1, d2]
  have hfont : ∀ (ps : DistillerParams) (cs : List EngineCall),
      processFontOptions fs ("fp".toList ++ p) (2 + p.length) paramMap ps cs =
        (match pushPathParam fs ("Pf".toList ++ p) (2 + p.length) 2 paramMap ps with
        | .error e => .error e
        | .ok r => .ok (r.1, r.2, cs)) := by
    intro ps cs
    have hc : ("fp".toList ++ p).getD 1 NUL = 'p' := rfl
    unfold processFontOptions
    dsimp only
    rw [hc, if_pos rfl, hsame]
  refine ⟨hfont params calls, ?_, ?_⟩
  · have h2 : paramMap.lookup (("Pf".toList ++ p).take 2) = some ("fontdevice".toList, []) := rfl
    have d2 : ("Pf".toList ++ p).drop 2 = p := rfl
    unfold pushPathParam
    rw [if_neg (by omega)]
    dsimp only
    rw [h2, d2]
  · intro st
    have hf : ("fp".toList ++ p).headD NUL = 'f' := rfl
    have hP : ("Pf".toList ++ p).headD NUL = 'P' := rfl
    unfold dispatchDirective
    dsimp only
    rw [hf, hP, if_neg (by decide), if_pos rfl, if_neg (by decide), if_neg (by decide),
      if_neg (by decide), if_neg (by decide), if_pos rfl, hfont]
    cases pushPathParam fs ("Pf".toList ++ p) (2 + p.length) 2 paramMap st.distillerParams with
    | error e => rfl
    | ok r => rfl

/-! ## Object compression -/

/-- C18 (the code on the documented `-dZ` forms). The table has no `dZ` entry: each of
the lines `dZ`, `dZNone`, `dZTags`, `dZAll` is rejected by `processDistillOptions`, which
returns false and appends nothing. -/
theorem processDistillOptions_dZ_rejected :
    processDistillOptions "dZ".toList 2 paramMap [] = (false, []) ∧
    processDistillOptions "dZNone".toList 6 paramMap [] = (false, []) ∧
    processDistillOptions "dZTags".toList 6 paramMap [] = (false, []) ∧
    processDistillOptions "dZAll".toList 5 paramMap [] = (false, []) := by
  decide

/-! ## Success means something was added -/

theorem pushParam_cases (line : U8String) (len need : Nat) (m : ParamMap)
    (params : DistillerParams) :
    pushParam line len need m params = (false, params) ∨
      ∃ e, pushParam line len need m params = (true, params ++ [e]) := by
  unfold pushParam
  split
  · exact Or.inl rfl
  · split
    · exact Or.inl rfl
    · split
      · exact Or.inr ⟨_, rfl⟩
      · split
        · exact Or.inl rfl
        · exact Or.inr ⟨_, rfl⟩

theorem imageOptionsBody_mono (line : U8String) (len : Nat) (m : ParamMap)
    (st : Bool × DistillerParams) (i : Nat) :
    ∃ more, (imageOptionsBody line len m st i).2 = st.2 ++ more ∧
      (st.1 = true → (imageOptionsBody line len m st i).1 = true) := by
  unfold imageOptionsBody
  dsimp only
  split
  · rcases pushParam_cases line len 3 m st.2 with h1 | ⟨e1, h1⟩
    · rw [h1]
      exact ⟨[], by simp, by simp⟩
    · rw [h1]
      rcases pushParam_cases (line.take 2 ++ ['u']) 3 3 m (st.2 ++ [e1]) with h2 | ⟨e2, h2⟩
      · rw [h2]
        exact ⟨[e1], by simp, by simp⟩
      · rw [h2]
        rcases pushParam_cases (line.take 2 ++ ['d']) 3 3 m (st.2 ++ [e1] ++ [e2])
          with h3 | ⟨e3, h3⟩
        · rw [h3]
          exact ⟨[e1, e2], by simp, by simp⟩
        · rw [h3]
          exact ⟨[e1, e2, e3], by simp, by simp⟩
  · split
    · rcases pushParam_cases line 3 3 m st.2 with h1 | ⟨e1, h1⟩
      · rw [h1]
        exact ⟨[], by simp, by simp⟩
      · rw [h1]
        rcases pushParam_cases (line.take 2 ++ ['d']) 3 3 m (st.2 ++ [e1]) with h3 | ⟨e3, h3⟩
        · rw [h3]
          exact ⟨[e1], by simp, by simp⟩
        · rw [h3]
          exact ⟨[e1, e3], by simp, by simp⟩
    · rcases pushParam_cases (line.take 2 ++ [line.getD i NUL]) 3 3 m st.2 with h3 | ⟨e3, h3⟩
      · rw [h3]
        exact ⟨[], by simp, by simp⟩
      · rw [h3]
        exact ⟨[e3], by simp, by simp⟩

theorem foldl_imageOptionsBody_mono (line : U8String) (len : Nat) (m : ParamMap)
    (is : List Nat) (st : Bool × DistillerParams) :
    ∃ more, (is.foldl (imageOptionsBody line len m) st).2 = st.2 ++ more ∧
      (st.1 = true → (is.foldl (imageOptionsBody line len m) st).1 = true) := by
  induction is generalizing st with
  | nil => exact ⟨[], by simp, fun h => h⟩
  | cons i is ih =>
    obtain ⟨m1, h1, k1⟩ := imageOptionsBody_mono line len m st i
    obtain ⟨m2, h2, k2⟩ := ih (imageOptionsBody line len m st i)
    rw [List.foldl_cons]
    refine ⟨m1 ++ m2, ?_, fun h => k2 (k1 h)⟩
    rw [h2, h1, List.append_assoc]

theorem imageOptionsBody_unknown (line : U8String) (len : Nat) (m : ParamMap)
    (st : Bool × DistillerParams) (i : Nat) (hnone : m.lookup (line.take 3) = none) :
    ∃ more, imageOptionsBody line len m st i = (st.1 || !more.isEmpty, st.2 ++ more) := by
  have hq : pushParam line len 3 m st.2 = (false, st.2) := pushParam_of_lookup_none hnone
  have hl : pushParam line 3 3 m st.2 = (false, st.2) := pushParam_of_lookup_none hnone
  unfold imageOptionsBody
  dsimp only
  split
  · rw [hq]
    exact ⟨[], by simp⟩
  · split
    · rw [hl]
      exact ⟨[], by simp⟩
    · rcases pushParam_cases (line.take 2 ++ [line.getD i NUL]) 3 3 m st.2 with h3 | ⟨e3, h3⟩
      · rw [h3]
        exact ⟨[], by simp⟩
      · rw [h3]
        exact ⟨[e3], by simp⟩

theorem foldl_imageOptionsBody_unknown (line : U8String) (len : Nat) (m : ParamMap)
    (is : List Nat) (st : Bool × DistillerParams) (hnone : m.lookup (line.take 3) = none) :
    ∃ more, is.foldl (imageOptionsBody line len m) st = (st.1 || !more.isEmpty, st.2 ++ more) := by
  induction is generalizing st with
  | nil => exact ⟨[], by simp⟩
  | cons i is ih =>
    obtain ⟨m1, h1⟩ := imageOptionsBody_unknown line len m st i hnone
    obtain ⟨m2, h2⟩ := ih (imageOptionsBody line len m st i)
    rw [List.foldl_cons, h2, h1]
    refine ⟨m1 ++ m2, ?_⟩
    cases st.1 <;> cases m1 <;> cases m2 <;> simp

theorem table_three :
    ∀ x ∈ paramMap, x.1.length = 3 →
      (x.1.getD 2 NUL = 'q' → x.2.2 = [] ∧
        (paramMap.lookup (x.1.take 2 ++ ['u'])).any (fun e => !e.2.isEmpty) = true ∧
        (paramMap.lookup (x.1.take 2 ++ ['d'])).any (fun e => !e.2.isEmpty) = true) ∧
      (x.1.getD 2 NUL ≠ 'q' → x.2.2 ≠ []) ∧
      ((x.1.getD 2 NUL = 'l' ∨ x.1.getD 2 NUL = 'm' ∨ x.1.getD 2 NUL = 'h' ∨
          x.1.getD 2 NUL = 'u') →
        (paramMap.lookup (x.1.take 2 ++ ['d'])).any (fun e => !e.2.isEmpty) = true) := by
  decide

theorem lookup_any_fixed {k : U8String}
    (h : (paramMap.lookup k).any (fun e => !e.2.isEmpty) = true) :
    ∃ key v, v ≠ [] ∧ paramMap.lookup k = some (key, v) := by
  cases hl : paramMap.lookup k with
  | none => simp [hl] at h
  | some e =>
    obtain ⟨key, v⟩ := e
    rw [hl] at h
    refine ⟨key, v, ?_, rfl⟩
    intro hv
    subst hv
    simp at h

theorem imageOptionsBody_first_known (a b c : Char) (rest : U8String) (e : DistillerParam)
    (params : DistillerParams) (h : paramMap.lookup [a, b, c] = some e) :
    ∃ more, more ≠ [] ∧
      imageOptionsBody (a :: b :: c :: rest) (a :: b :: c :: rest).length paramMap
        (false, params) 2 = (true, params ++ more) := by
  obtain ⟨key, v⟩ := e
  have ht := table_three ([a, b, c], (key, v)) (mem_of_lookup h) rfl
  have hq : c = 'q' → v = [] ∧
      (paramMap.lookup [a, b, 'u']).any (fun e => !e.2.isEmpty) = true ∧
      (paramMap.lookup [a, b, 'd']).any (fun e => !e.2.isEmpty) = true := ht.1
  have hnq : c ≠ 'q' → v ≠ [] := ht.2.1
  have hl : (c = 'l' ∨ c = 'm' ∨ c = 'h' ∨ c = 'u') →
      (paramMap.lookup [a, b, 'd']).any (fun e => !e.2.isEmpty) = true := ht.2.2
  have hlook : paramMap.lookup ((a :: b :: c :: rest).take 3) = some (key, v) := h
  have htake : (a :: b :: c :: rest).take 2 = [a, b] := rfl
  have hget : (a :: b :: c :: rest).getD 2 NUL = c := rfl
  have hlen : 3 ≤ (a :: b :: c :: rest).length := by simp
  unfold imageOptionsBody
  dsimp only
  rw [htake, hget]
  by_cases hcq : c = 'q'
  · obtain ⟨hv, hu, hd⟩ := hq hcq
    obtain ⟨ku, vu, hvu, hlu⟩ := lookup_any_fixed hu
    obtain ⟨kd, vd, hvd, hld⟩ := lookup_any_fixed hd
    subst hv
    have hlu' : paramMap.lookup (([a, b] ++ ['u']).take 3) = some (ku, vu) := hlu
    have hld' : paramMap.lookup (([a, b] ++ ['d']).take 3) = some (kd, vd) := hld
    rw [if_pos hcq, pushParam_of_lookup_free hlen hlook, pushParam_of_lookup_fixed hvu hlu',
      pushParam_of_lookup_fixed hvd hld']
    exact ⟨[(key, (a :: b :: c :: rest).drop 3), (ku, vu), (kd, vd)], by simp, by simp⟩
  · have hv : v ≠ [] := hnq hcq
    by_cases hcl : c = 'l' ∨ c = 'm' ∨ c = 'h' ∨ c = 'u'
    · obtain ⟨kd, vd, hvd, hld⟩ := lookup_any_fixed (hl hcl)
      have hld' : paramMap.lookup (([a, b] ++ ['d']).take 3) = some (kd, vd) := hld
      rw [if_neg hcq, if_pos hcl, pushParam_of_lookup_fixed hv hlook,
        pushParam_of_lookup_fixed hvd hld']
      exact ⟨[(key, v), (kd, vd)], by simp, by simp⟩
    · have hlook' : paramMap.lookup (([a, b] ++ [c]).take 3) = some (key, v) := h
      rw [if_neg hcq, if_neg hcl, pushParam_of_lookup_fixed hv hlook']
      exact ⟨[(key, v)], by simp, by simp⟩

theorem processImageOptions_added (line : U8String) (params : DistillerParams) :
    ∃ ext, processImageOptions line line.length paramMap params =
      (!ext.isEmpty, params ++ ext) := by
  unfold processImageOptions
  by_cases h2 : line.length < 2
  · rw [if_pos h2]
    exact ⟨[], by simp⟩
  · rw [if_neg h2]
    cases hl : paramMap.lookup (line.take 3) with
    | none =>
      obtain ⟨more, hm⟩ := foldl_imageOptionsBody_unknown line line.length paramMap
        (List.range' 2 (line.length - 2)) (false, params) hl
      exact ⟨more, by rw [hm]; simp⟩
    | some e =>
      match line, h2, hl with
      | [], h2, _ => exact absurd (by simp) h2
      | [a], h2, _ => exact absurd (by simp) h2
      | [a, b], _, _ => exact ⟨[], by simp⟩
      | a :: b :: c :: rest, _, hl =>
        obtain ⟨m1, hne, h1⟩ := imageOptionsBody_first_known a b c rest e params hl
        have hrange : List.range' 2 ((a :: b :: c :: rest).length - 2) =
            2 :: List.range' 3 rest.length := by
          have : (a :: b :: c :: rest).length - 2 = rest.length + 1 := by simp
          rw [this, List.range'_succ]
        rw [hrange, List.foldl_cons, h1]
        obtain ⟨m2, hm2, hk2⟩ := foldl_imageOptionsBody_mono (a :: b :: c :: rest)
          (a :: b :: c :: rest).length paramMap (List.range' 3 rest.length) (true, params ++ m1)
        refine ⟨m1 ++ m2, ?_⟩
        have hfst := hk2 rfl
        have hsnd : (List.foldl (imageOptionsBody (a :: b :: c :: rest)
            (a :: b :: c :: rest).length paramMap) (true, params ++ m1)
            (List.range' 3 rest.length)).2 = params ++ (m1 ++ m2) := by
          rw [hm2, List.append_assoc]
        have hemp : (m1 ++ m2).isEmpty = false := by
          cases m1 with
          | nil => exact absurd rfl hne
          | cons x xs => rfl
        rw [hemp]
        exact Prod.ext hfst hsnd

theorem processDistillOptions_added (line : U8String) (params : DistillerParams) :
    ∃ ext, processDistillOptions line line.length paramMap params =
      (!ext.isEmpty, params ++ ext) := by
  unfold processDistillOptions
  dsimp only
  rcases pushParam_cases line line.length 2 paramMap params with h1 | ⟨e1, h1⟩
  · rw [h1]
    obtain ⟨ext, h2⟩ := processImageOptions_added line params
    rw [h2]
    cases ext with
    | nil =>
      rcases pushParam_cases line line.length line.length paramMap params with h3 | ⟨e3, h3⟩
      · exact ⟨[], by simp [h3]⟩
      · exact ⟨[e3], by simp [h3]⟩
    | cons x xs => exact ⟨x :: xs, by simp⟩
  · rw [h1]
    exact ⟨[e1], by simp⟩

theorem added_form (r : Bool × DistillerParams) (params : DistillerParams)
    (h : ∃ ext, r = (!ext.isEmpty, params ++ ext)) :
    r = (false, params) ∨ ∃ ext, ext ≠ [] ∧ r = (true, params ++ ext) := by
  obtain ⟨ext, rfl⟩ := h
  cases ext with
  | nil => exact Or.inl (by simp)
  | cons x xs => exact Or.inr ⟨x :: xs, by simp, by simp⟩

/-- C19. With the program's table, for every line and every prior parameter list,
`processDistillOptions` and `processImageOptions` either return false and leave the list
exactly as it was, or return true and leave the prior list followed by at least one
appended parameter: true is returned exactly when something was appended.  Both are
total functions, so no error is raised. -/
theorem processDistillOptions_added_iff (line : U8String) (params : DistillerParams) :
    (processDistillOptions line line.length paramMap params = (false, params) ∨
      ∃ ext, ext ≠ [] ∧
        processDistillOptions line line.length paramMap params = (true, params ++ ext)) ∧
    (processImageOptions line line.length paramMap params = (false, params) ∨
      ∃ ext, ext ≠ [] ∧
        processImageOptions line line.length paramMap params = (true, params ++ ext)) :=
  ⟨added_form _ params (processDistillOptions_added line params),
    added_form _ params (processImageOptions_added line params)⟩

/-- C20 (the code on a fixed-value token with trailing text). The lines `dfex`, `dfsx`,
`dtax`, `dtpx`, `dtrx` are accepted: `processImageOptions` takes the first two bytes as a
channel and resolves the third byte through the table, so `processDistillOptions`
returns true and appends the parameter of the token. -/
theorem processDistillOptions_fixed_with_text_accepted :
    processDistillOptions "dfex".toList 4 paramMap [] =
      (true, [("embedfonts".toList, "true".toList)]) ∧
    processDistillOptions "dfsx".toList 4 paramMap [] =
      (true, [("subsetfonts".toList, "true".toList)]) ∧
    processDistillOptions "dtax".toList 4 paramMap [] =
      (true, [("transfers".toList, "apply".toList)]) ∧
    processDistillOptions "dtpx".toList 4 paramMap [] =
      (true, [("transfers".toList, "preserve".toList)]) ∧
    processDistillOptions "dtrx".toList 4 paramMap [] =
      (true, [("transfers".toList, "remove".toList)]) := by
  decide

/-! ## Parsers only append -/

theorem pushParam_keeps (line : U8String) (len need : Nat) (m : ParamMap)
    (A P : DistillerParams) :
    pushParam line len need m (A ++ P) =
      ((pushParam line len need m P).1, A ++ (pushParam line len need m P).2) := by
  unfold pushParam
  split
  · rfl
  · split
    · rfl
    · split
      · simp
      · split
        · rfl
        · simp

theorem imageOptionsBody_keeps (line : U8String) (len : Nat) (m : ParamMap)
    (A : DistillerParams) (st : Bool × DistillerParams) (i : Nat) :
    imageOptionsBody line len m (st.1, A ++ st.2) i =
      ((imageOptionsBody line len m st i).1, A ++ (imageOptionsBody line len m st i).2) := by
  unfold imageOptionsBody
  dsimp only
  split
  · rw [pushParam_keeps]
    dsimp only
    split
    · rfl
    · rw [pushParam_keeps]
      dsimp only
      split
      · rfl
      · rw [pushParam_keeps]
  · split
    · rw [pushParam_keeps]
      dsimp only
      split
      · rfl
      · rw [pushParam_keeps]
    · rw [pushParam_keeps]

theorem foldl_imageOptionsBody_keeps (line : U8String) (len : Nat) (m : ParamMap)
    (A : DistillerParams) (is : List Nat) (st : Bool × DistillerParams) :
    is.foldl (imageOptionsBody line len m) (st.1, A ++ st.2) =
      ((is.foldl (imageOptionsBody line len m) st).1,
        A ++ (is.foldl (imageOptionsBody line len m) st).2) := by
  induction is generalizing st with
  | nil => rfl
  | cons i is ih =>
    rw [List.foldl_cons, List.foldl_cons, imageOptionsBody_keeps, ih]

theorem processImageOptions_keeps (line : U8String) (len : Nat) (m : ParamMap)
    (A P : DistillerParams) :
    processImageOptions line len m (A ++ P) =
      ((processImageOptions line len m P).1, A ++ (processImageOptions line len m P).2) := by
  unfold processImageOptions
  split
  · rfl
  · exact foldl_imageOptionsBody_keeps line len m A _ (false, P)

theorem processDistillOptions_keeps (line : U8String) (len : Nat) (m : ParamMap)
    (A P : DistillerParams) :
    processDistillOptions line len m (A ++ P) =
      ((processDistillOptions line len m P).1, A ++ (processDistillOptions line len m P).2) := by
  unfold processDistillOptions
  dsimp only
  rw [pushParam_keeps]
  dsimp only
  split
  · rfl
  · rw [processImageOptions_keeps]
    dsimp only
    split
    · rfl
    · rw [pushParam_keeps]

theorem pushPathParam_keeps (fs : FileSystem) (line : U8String) (len need : Nat)
    (m : ParamMap) (A P : DistillerParams) :
    pushPathParam fs line len need m (A ++ P) =
      (pushPathParam fs line len need m P).map (fun r => (r.1, A ++ r.2)) := by
  unfold pushPathParam
  split
  · rfl
  · dsimp only
    split
    · rfl
    · split
      · split
        · rfl
        · simp [Except.map]
      · simp [Except.map]

theorem processPrologEpilogOptions_keeps (fs : FileSystem) (line : U8String) (len : Nat)
    (m : ParamMap) (A P : DistillerParams) :
    processPrologEpilogOptions fs line len m (A ++ P) =
      (processPrologEpilogOptions fs line len m P).map (fun r => (r.1, A ++ r.2)) := by
  unfold processPrologEpilogOptions
  split
  · exact pushPathParam_keeps fs line len 4 m A P
  · rw [pushParam_keeps]
    rfl

theorem extraOptionsBody_keeps (fs : FileSystem) (first : Char) (m : ParamMap)
    (A : DistillerParams) (st : Bool × DistillerParams) (token : U8String) :
    extraOptionsBody fs first m (st.1, A ++ st.2) token =
      (extraOptionsBody fs first m st token).map (fun r => (r.1, A ++ r.2)) := by
  unfold extraOptionsBody
  split
  · rfl
  · dsimp only
    split
    · rw [pushPathParam_keeps, pushParam_keeps]
      cases pushPathParam fs _ _ _ m st.2 with
      | error e => rfl
      | ok r =>
        cases hr : r.1 <;> simp [Except.map, hr]
    · rw [pushParam_keeps]
      rfl

theorem foldlM_extraOptionsBody_keeps (fs : FileSystem) (first : Char) (m : ParamMap)
    (A : DistillerParams) (toks : List U8String) (st : Bool × DistillerParams) :
    toks.foldlM (extraOptionsBody fs first m) (st.1, A ++ st.2) =
      (toks.foldlM (extraOptionsBody fs first m) st).map (fun r => (r.1, A ++ r.2)) := by
  induction toks generalizing st with
  | nil => rfl
  | cons t ts ih =>
    rw [List.foldlM_cons, List.foldlM_cons, extraOptionsBody_keeps]
    cases extraOptionsBody fs first m st t with
    | error e => rfl
    | ok r => exact ih r

theorem processExtraOptions_keeps (fs : FileSystem) (line : U8String) (len : Nat)
    (m : ParamMap) (A P : DistillerParams) :
    processExtraOptions fs line len m (A ++ P) =
      (processExtraOptions fs line len m P).map (fun r => (r.1, A ++ r.2)) := by
  unfold processExtraOptions
  exact foldlM_extraOptionsBody_keeps fs _ m A _ (false, P)

/-- C24. For every line, table and prior parameter list `L`, the list left by
`pushParam`, `pushPathParam` (when it does not fail), `processImageOptions`,
`processDistillOptions`, `processPrologEpilogOptions` and `processExtraOptions` is `L`
itself, unchanged and in order, followed by what the parser appends to the empty list:
earlier entries are never removed, reordered or overwritten. -/
theorem parsers_only_append (fs : FileSystem) (line : U8String) (len need : Nat)
    (m : ParamMap) (L : DistillerParams) :
    pushParam line len need m L =
      ((pushParam line len need m []).1, L ++ (pushParam line len need m []).2) ∧
    pushPathParam fs line len need m L =
      (pushPathParam fs line len need m []).map (fun r => (r.1, L ++ r.2)) ∧
    processImageOptions line len m L =
      ((processImageOptions line len m []).1, L ++ (processImageOptions line len m []).2) ∧
    processDistillOptions line len m L =
      ((processDistillOptions line len m []).1, L ++ (processDistillOptions line len m []).2) ∧
    processPrologEpilogOptions fs line len m L =
      (processPrologEpilogOptions fs line len m []).map (fun r => (r.1, L ++ r.2)) ∧
    processExtraOptions fs line len m L =
      (processExtraOptions fs line len m []).map (fun r => (r.1, L ++ r.2)) := by
  have h1 := pushParam_keeps line len need m L []
  have h2 := pushPathParam_keeps fs line len need m L []
  have h3 := processImageOptions_keeps line len m L []
  have h4 := processDistillOptions_keeps line len m L []
  have h5 := processPrologEpilogOptions_keeps fs line len m L []
  have h6 := processExtraOptions_keeps fs line len m L []
  rw [List.append_nil] at h1 h2 h3 h4 h5 h6
  exact ⟨h1, h2, h3, h4, h5, h6⟩

/-! ## Termination of patternMatch -/

/-- C22. `patternMatch` is a total function, defined by well-founded recursion on the
combined length of pattern and string, and its recursion ends within that many nested
calls: run with any depth bound above `pat.length + str.length`, the recursion of the
source returns, and returns the boolean `patternMatch pat str`. -/
theorem patternMatch_terminates (pat str : List Char) (depth : Nat)
    (h : pat.length + str.length < depth) :
    patternMatchDepth depth pat str = some (patternMatch pat str) := by
  induction depth generalizing pat str with
  | zero => omega
  | succ d ih =>
    cases pat with
    | nil =>
      rw [patternMatchDepth, patternMatch]
    | cons p pat =>
      have hlen : pat.length + str.length < d := by
        simp only [List.length_cons] at h
        omega
      cases str with
      | nil =>
        rw [patternMatchDepth, patternMatch]
        by_cases h0 : p = NUL
        · rw [if_pos h0, if_pos h0]
        · rw [if_neg h0, if_neg h0]
          by_cases h1 : p = '?'
          · rw [if_pos h1, if_pos h1]
          · rw [if_neg h1, if_neg h1]
            by_cases h2 : p = '*'
            · rw [if_pos h2, if_pos h2, ih pat [] hlen]
              cases patternMatch pat [] <;> rfl
            · rw [if_neg h2, if_neg h2]
      | cons c cs =>
        have hlen1 : pat.length + cs.length < d := by
          simp only [List.length_cons] at h
          omega
        have hlen2 : (p :: pat).length + cs.length < d := by
          simp only [List.length_cons] at h ⊢
          omega
        rw [patternMatchDepth, patternMatch]
        by_cases h0 : p = NUL
        · rw [if_pos h0, if_pos h0]
        · rw [if_neg h0, if_neg h0]
          by_cases h1 : p = '?'
          · rw [if_pos h1, if_pos h1]
            by_cases hc : c = NUL
            · simp [hc]
            · simp [hc, ih pat cs hlen1]
          · rw [if_neg h1, if_neg h1]
            by_cases h2 : p = '*'
            · rw [if_pos h2, if_pos h2, ih pat (c :: cs) hlen]
              cases patternMatch pat (c :: cs)
              · by_cases hc : c = NUL
                · simp [hc]
                · simp [hc, ih (p :: pat) cs hlen2]
              · simp
            · rw [if_neg h2, if_neg h2]
              by_cases hpc : p = c
              · simp [hpc, ih pat cs hlen1]
              · simp [hpc]

theorem patternMatch_terminates_witness :
    patternMatchDepth 16 "***a?".toList "aaaaaaaaaa".toList =
      some (patternMatch "***a?".toList "aaaaaaaaaa".toList) :=
  patternMatch_terminates "***a?".toList "aaaaaaaaaa".toList 16 (by decide)

/-! ## Channel isolation -/

theorem pushParam_spec (line : U8String) (len need : Nat) (m : ParamMap)
    (params : DistillerParams) :
    pushParam line len need m params = (false, params) ∨
      ∃ e, m.lookup (line.take need) = some e ∧
        ((e.2 = [] ∧ pushParam line len need m params =
            (true, params ++ [(e.1, line.drop need)])) ∨
          (e.2 ≠ [] ∧ pushParam line len need m params = (true, params ++ [e]))) := by
  unfold pushParam
  split
  · exact Or.inl rfl
  · split
    · exact Or.inl rfl
    · rename_i e he
      split
      · rename_i h0
        exact Or.inr ⟨e, he, Or.inl ⟨List.length_eq_zero.1 h0, rfl⟩⟩
      · rename_i h0
        split
        · exact Or.inl rfl
        · exact Or.inr ⟨e, he, Or.inr ⟨fun h => h0 (by rw [h]; rfl), rfl⟩⟩

theorem pushParam_direct (line : U8String) (len : Nat) (params : DistillerParams) :
    pushParam line len 3 paramMap params = (false, params) ∨
      ∃ kv, channelEntry line kv ∧
        pushParam line len 3 paramMap params = (true, params ++ [kv]) := by
  rcases pushParam_spec line len 3 paramMap params with h | ⟨e, he, h | h⟩
  · exact Or.inl h
  · refine Or.inr ⟨(e.1, line.drop 3), ⟨line.take 3, e, mem_of_lookup he, ?_, rfl,
      Or.inl ⟨h.1, rfl⟩⟩, h.2⟩
    rw [List.take_take]
    rfl
  · refine Or.inr ⟨e, ⟨line.take 3, e, mem_of_lookup he, ?_, rfl, Or.inr ⟨h.1, rfl⟩⟩, h.2⟩
    rw [List.take_take]
    rfl

theorem pushParam_synthetic (line : U8String) (x : Char) (hx : x ≠ 'q')
    (hlen : 2 ≤ line.length) (params : DistillerParams) :
    pushParam (line.take 2 ++ [x]) 3 3 paramMap params = (false, params) ∨
      ∃ kv, channelEntry line kv ∧
        pushParam (line.take 2 ++ [x]) 3 3 paramMap params = (true, params ++ [kv]) := by
  have hl2 : (line.take 2).length = 2 := by
    rw [List.length_take]
    omega
  have htake : (line.take 2 ++ [x]).take 3 = line.take 2 ++ [x] :=
    List.take_of_length_le (by simp [hl2])
  have ht2 : (line.take 2 ++ [x]).take 2 = line.take 2 := by
    rw [List.take_append_of_le_length (by omega), List.take_take]
    rfl
  rcases pushParam_spec (line.take 2 ++ [x]) 3 3 paramMap params with h | ⟨e, he, h | h⟩
  · exact Or.inl h
  · exfalso
    rw [htake] at he
    have ht := table_three (line.take 2 ++ [x], e) (mem_of_lookup he) (by simp [hl2])
    have hget : (line.take 2 ++ [x]).getD 2 NUL = x := by
      rw [List.getD_append_right _ _ _ _ (by omega), hl2]
      rfl
    exact ht.2.1 (by rw [hget]; exact hx) h.1
  · rw [htake] at he
    exact Or.inr ⟨e, ⟨line.take 2 ++ [x], e, mem_of_lookup he, ht2, rfl, Or.inr ⟨h.1, rfl⟩⟩, h.2⟩

theorem imageOptionsBody_channel (line : U8String) (len : Nat) (hlen : 2 ≤ line.length)
    (st : Bool × DistillerParams) (i : Nat) :
    ∃ more, (imageOptionsBody line len paramMap st i).2 = st.2 ++ more ∧
      ∀ kv ∈ more, channelEntry line kv := by
  unfold imageOptionsBody
  dsimp only
  split
  · rcases pushParam_direct line len st.2 with h1 | ⟨k1, c1, h1⟩
    · rw [h1]
      exact ⟨[], by simp, by simp⟩
    · rw [h1]
      rcases pushParam_synthetic line 'u' (by decide) hlen (st.2 ++ [k1]) with h2 | ⟨k2, c2, h2⟩
      · rw [h2]
        exact ⟨[k1], by simp, by simpa using c1⟩
      · rw [h2]
        rcases pushParam_synthetic line 'd' (by decide) hlen (st.2 ++ [k1] ++ [k2])
          with h3 | ⟨k3, c3, h3⟩
        · rw [h3]
          refine ⟨[k1, k2], by simp, ?_⟩
          intro kv hkv
          simp only [List.mem_cons, List.mem_singleton, List.not_mem_nil, or_false] at hkv
          rcases hkv with rfl | rfl
          exacts [c1, c2]
        · rw [h3]
          refine ⟨[k1, k2, k3], by simp, ?_⟩
          intro kv hkv
          simp only [List.mem_cons, List.mem_singleton, List.not_mem_nil, or_false] at hkv
          rcases hkv with rfl | rfl | rfl
          exacts [c1, c2, c3]
  · rename_i hq
    split
    · rcases pushParam_direct line 3 st.2 with h1 | ⟨k1, c1, h1⟩
      · rw [h1]
        exact ⟨[], by simp, by simp⟩
      · rw [h1]
        rcases pushParam_synthetic line 'd' (by decide) hlen (st.2 ++ [k1]) with h3 | ⟨k3, c3, h3⟩
        · rw [h3]
          exact ⟨[k1], by simp, by simpa using c1⟩
        · rw [h3]
          refine ⟨[k1, k3], by simp, ?_⟩
          intro kv hkv
          simp only [List.mem_cons, List.mem_singleton, List.not_mem_nil, or_false] at hkv
          rcases hkv with rfl | rfl
          exacts [c1, c3]
    · rcases pushParam_synthetic line (line.getD i NUL) hq hlen st.2 with h3 | ⟨k3, c3, h3⟩
      · rw [h3]
        exact ⟨[], by simp, by simp⟩
      · rw [h3]
        exact ⟨[k3], by simp, by simpa using c3⟩

theorem foldl_imageOptionsBody_channel (line : U8String) (len : Nat) (hlen : 2 ≤ line.length)
    (is : List Nat) (st : Bool × DistillerParams) :
    ∃ more, (is.foldl (imageOptionsBody line len paramMap) st).2 = st.2 ++ more ∧
      ∀ kv ∈ more, channelEntry line kv := by
  induction is generalizing st with
  | nil => exact ⟨[], by simp, by simp⟩
  | cons i is ih =>
    obtain ⟨m1, h1, c1⟩ := imageOptionsBody_channel line len hlen st i
    obtain ⟨m2, h2, c2⟩ := ih (imageOptionsBody line len paramMap st i)
    rw [List.foldl_cons]
    refine ⟨m1 ++ m2, by rw [h2, h1, List.append_assoc], ?_⟩
    intro kv hkv
    rcases List.mem_append.1 hkv with h | h
    exacts [c1 kv h, c2 kv h]

theorem table_mono :
    ∀ x ∈ paramMap, x.1.take 2 = "dm".toList →
      x.2.1 = "monoimagecompression".toList ∧ x.2.2 ≠ [] ∧
        x.2.2 ∈ ["flate".toList, "flatepredict".toList, "ccitt".toList] := by
  decide

theorem table_colour_grey :
    ∀ x ∈ paramMap, (x.1.take 2 = "dc".toList ∨ x.1.take 2 = "dg".toList) →
      x.2.2 ≠ "ccitt".toList ∧
        (x.2.2 = [] → x.2.1 = "colorqfactor".toList ∨ x.2.1 = "grayqfactor".toList) := by
  decide

/-- C21 (the claim fails in its last part). The line `dcqccitt` begins with `dc` and
appends a parameter whose value is `ccitt`: the q-factor takes the rest of the line. -/
theorem processImageOptions_dc_ccitt_value :
    processImageOptions "dcqccitt".toList 8 paramMap [] =
      (true, [("colorqfactor".toList, "ccitt".toList),
        ("colorjpegquality".toList, "user".toList),
        ("colorimagecompression".toList, "dct".toList)]) ∧
    ¬ ∀ kv ∈ (processImageOptions "dcqccitt".toList 8 paramMap []).2,
        kv.2 ≠ "ccitt".toList := by
  decide

/-- C21 (amended). For every line of at least two bytes, every parameter that
`processImageOptions` appends is the (key, value) of a table entry whose token begins
with the first two bytes of the line, with the rest of the line as value for an entry
without fixed value.  So a line beginning with `dm` only appends monoimagecompression
with value flate, flatepredict or ccitt; and a line beginning with `dc` or `dg` appends
the value ccitt only as its q-factor, when the line itself carries the text ccitt after
its third byte, never as a compression or JPEG quality. -/
theorem processImageOptions_channel (line : U8String) (params : DistillerParams)
    (hlen : 2 ≤ line.length) :
    ∃ ext, (processImageOptions line line.length paramMap params).2 = params ++ ext ∧
      (∀ kv ∈ ext, channelEntry line kv) ∧
      (line.take 2 = "dm".toList → ∀ kv ∈ ext,
        kv.1 = "monoimagecompression".toList ∧
          kv.2 ∈ ["flate".toList, "flatepredict".toList, "ccitt".toList]) ∧
      ((line.take 2 = "dc".toList ∨ line.take 2 = "dg".toList) → ∀ kv ∈ ext,
        kv.2 = "ccitt".toList →
          (kv.1 = "colorqfactor".toList ∨ kv.1 = "grayqfactor".toList) ∧
            line.drop 3 = "ccitt".toList) := by
  have hfold := foldl_imageOptionsBody_channel line line.length hlen
    (List.range' 2 (line.length - 2)) (false, params)
  obtain ⟨ext, hext, hch⟩ := hfold
  refine ⟨ext, ?_, hch, ?_, ?_⟩
  · unfold processImageOptions
    rw [if_neg (by omega)]
    exact hext
  · intro hdm kv hkv
    obtain ⟨t, e, hmem, ht, hk, hv⟩ := hch kv hkv
    have hm := table_mono (t, e) hmem (by rw [ht, hdm])
    rcases hv with ⟨he, _⟩ | ⟨_, hv⟩
    · exact absurd he hm.2.1
    · exact ⟨by rw [hk]; exact hm.1, by rw [hv]; exact hm.2.2⟩
  · intro hcg kv hkv hcc
    obtain ⟨t, e, hmem, ht, hk, hv⟩ := hch kv hkv
    have hm := table_colour_grey (t, e) hmem (by rw [ht]; exact hcg)
    rcases hv with ⟨he, hv⟩ | ⟨_, hv⟩
    · exact ⟨by rw [hk]; exact hm.2 he, by rw [← hv]; exact hcc⟩
    · exact absurd (by rw [← hv]; exact hcc) hm.1

theorem processImageOptions_channel_witness :
    (∃ ext, (processImageOptions "dmcf".toList 4 paramMap []).2 = [] ++ ext ∧
      (∀ kv ∈ ext, channelEntry "dmcf".toList kv) ∧
      (∀ kv ∈ ext, kv.1 = "monoimagecompression".toList ∧
        kv.2 ∈ ["flate".toList, "flatepredict".toList, "ccitt".toList])) ∧
    (∃ ext, (processImageOptions "dcqccitt".toList 8 paramMap []).2 = [] ++ ext ∧
      (∀ kv ∈ ext, channelEntry "dcqccitt".toList kv) ∧
      (∀ kv ∈ ext, kv.2 = "ccitt".toList →
        (kv.1 = "colorqfactor".toList ∨ kv.1 = "grayqfactor".toList) ∧
          "dcqccitt".toList.drop 3 = "ccitt".toList)) :=
  ⟨(processImageOptions_channel "dmcf".toList [] (by decide)).imp
      (fun _ h => ⟨h.1, h.2.1, h.2.2.1 rfl⟩),
    (processImageOptions_channel "dcqccitt".toList [] (by decide)).imp
      (fun _ h => ⟨h.1, h.2.1, h.2.2.2 (Or.inl rfl)⟩)⟩

/-! ## Keeping the accumulator after a conversion -/

theorem setDistillerParameters_eq (calls : List EngineCall) (params : DistillerParams) :
    setDistillerParameters calls params = calls ++ flushCalls params := rfl

theorem engineParams_append (M : EngineParams) (a b : List EngineCall) :
    engineParams M (a ++ b) = engineParams (engineParams M a) b := by
  unfold engineParams
  rw [List.foldl_append]

theorem observations_append (M : EngineParams) (a b : List EngineCall) :
    observations M (a ++ b) = observations M a ++ observations (engineParams M a) b := by
  induction a generalizing M with
  | nil => rfl
  | cons c a ih =>
    cases c <;> simp [observations, engineParams, engineStep, ih]

theorem observations_flushCalls (M : EngineParams) (params : DistillerParams) :
    observations M (flushCalls params) = [] := by
  induction params generalizing M with
  | nil => rfl
  | cons p ps ih => simpa [flushCalls, observations] using ih _

theorem flushCalls_append (a b : DistillerParams) :
    flushCalls (a ++ b) = flushCalls a ++ flushCalls b := by
  simp [flushCalls]

theorem engineParams_flush_cons (M : EngineParams) (p : DistillerParam)
    (ps : DistillerParams) :
    engineParams M (flushCalls (p :: ps)) = engineParams (setParam M p.1 p.2) (flushCalls ps) :=
  rfl

theorem engineParams_flush_congr (L : DistillerParams) (M M' : EngineParams) (k : U8String)
    (h : k ∈ L.map Prod.fst ∨ M k = M' k) :
    engineParams M (flushCalls L) k = engineParams M' (flushCalls L) k := by
  induction L generalizing M M' with
  | nil =>
    rcases h with h | h
    · simp at h
    · exact h
  | cons p ps ih =>
    rw [engineParams_flush_cons, engineParams_flush_cons]
    apply ih
    by_cases hk : k = p.1
    · right
      simp [setParam, hk]
    · rcases h with h | h
      · left
        simpa [hk] using h
      · right
        simp [setParam, hk, h]

theorem engineParams_flush_other (L : DistillerParams) (M : EngineParams) (k : U8String)
    (h : k ∉ L.map Prod.fst) : engineParams M (flushCalls L) k = M k := by
  induction L generalizing M with
  | nil => rfl
  | cons p ps ih =>
    have hk : k ≠ p.1 := fun e => h (by simp [e])
    rw [engineParams_flush_cons, ih _ (fun hm => h (by simp [hm]))]
    simp [setParam, hk]

theorem engineParams_flush_idem (L : DistillerParams) (M : EngineParams) :
    engineParams (engineParams M (flushCalls L)) (flushCalls L) =
      engineParams M (flushCalls L) := by
  funext k
  by_cases hk : k ∈ L.map Prod.fst
  · exact engineParams_flush_congr L _ _ k (Or.inl hk)
  · exact engineParams_flush_other L _ k hk

theorem engineParams_flush_absorb (A P : DistillerParams) (M : EngineParams)
    (h : engineParams M (flushCalls A) = M) :
    engineParams M (flushCalls (A ++ P)) = engineParams M (flushCalls P) := by
  rw [flushCalls_append, engineParams_append, h]

theorem engineParams_flush_call (M0 : EngineParams) (calls : List EngineCall)
    (P : DistillerParams) (c : EngineCall) (hc : ∀ M, engineStep M c = M) :
    engineParams M0 (setDistillerParameters calls P ++ [c]) =
      engineParams (engineParams M0 calls) (flushCalls P) := by
  rw [setDistillerParameters_eq, engineParams_append, engineParams_append]
  exact hc _

theorem observations_flush_call (M0 : EngineParams) (calls : List EngineCall)
    (P : DistillerParams) (c : EngineCall) :
    observations M0 (setDistillerParameters calls P ++ [c]) =
      observations M0 calls ++
        observations (engineParams (engineParams M0 calls) (flushCalls P)) [c] := by
  rw [setDistillerParameters_eq, observations_append, observations_append,
    observations_flushCalls, List.append_nil, engineParams_append]

theorem related_flush_cleared (M0 : EngineParams) (st st' : DriverState)
    (h : related M0 st st') (c : EngineCall) (hc : ∀ M, engineStep M c = M) :
    related M0
      { st with distillerParams := [],
                calls := setDistillerParameters st.calls st.distillerParams ++ [c] }
      { st' with distillerParams := [],
                 calls := setDistillerParameters st'.calls st'.distillerParams ++ [c] } := by
  obtain ⟨hout, hobs, heP, A, hA, habs⟩ := h
  have hflush : engineParams (engineParams M0 st.calls) (flushCalls st.distillerParams) =
      engineParams (engineParams M0 st'.calls) (flushCalls st'.distillerParams) := by
    rw [hA, engineParams_flush_absorb A _ _ habs, heP]
  refine ⟨hout, ?_, ?_, [], rfl, rfl⟩
  · show observations M0 (setDistillerParameters st.calls st.distillerParams ++ [c]) =
      observations M0 (setDistillerParameters st'.calls st'.distillerParams ++ [c])
    rw [observations_flush_call, observations_flush_call, hobs, hflush]
  · show engineParams M0 (setDistillerParameters st.calls st.distillerParams ++ [c]) =
      engineParams M0 (setDistillerParameters st'.calls st'.distillerParams ++ [c])
    rw [engineParams_flush_call _ _ _ _ hc, engineParams_flush_call _ _ _ _ hc, hflush]

theorem related_convert (M0 : EngineParams) (st st' : DriverState) (line : U8String)
    (h : related M0 st st') : related M0 (convert line st) (convertClearing line st') := by
  obtain ⟨hout, hobs, heP, A, hA, habs⟩ := h
  have hflush : engineParams (engineParams M0 st.calls) (flushCalls st.distillerParams) =
      engineParams (engineParams M0 st'.calls) (flushCalls st'.distillerParams) := by
    rw [hA, engineParams_flush_absorb A _ _ habs, heP]
  have hc : ∀ (i o : U8String) (M : EngineParams), engineStep M (EngineCall.distill i o) = M :=
    fun _ _ _ => rfl
  unfold convertClearing convert
  dsimp only
  rw [← hout]
  refine ⟨rfl, ?_, ?_, st.distillerParams, by simp, ?_⟩
  · dsimp only
    rw [observations_flush_call, observations_flush_call, hobs, hflush]
  · dsimp only
    rw [engineParams_flush_call _ _ _ _ (hc _ _), engineParams_flush_call _ _ _ _ (hc _ _),
      hflush]
  · dsimp only
    rw [engineParams_flush_call _ _ _ _ (hc _ _), engineParams_flush_idem]

theorem relatedResult_of_except (M0 : EngineParams) (st st' : DriverState) (A : DistillerParams)
    (hout : st.outputFilePath = st'.outputFilePath)
    (hobs : observations M0 st.calls = observations M0 st'.calls)
    (heP : engineParams M0 st.calls = engineParams M0 st'.calls)
    (habs : engineParams (engineParams M0 st.calls) (flushCalls A) = engineParams M0 st.calls)
    (r' : Except Failure (Bool × DistillerParams)) :
    relatedResult M0
      (match r'.map (fun x => (x.1, A ++ x.2)) with
        | .error e => .error e
        | .ok x => .ok { st with distillerParams := x.2 })
      (match r' with
        | .error e => .error e
        | .ok x => .ok { st' with distillerParams := x.2 }) := by
  cases r' with
  | error e => trivial
  | ok x => exact ⟨hout, hobs, heP, A, rfl, habs⟩

theorem relatedResult_processFontOptions (M0 : EngineParams) (fs : FileSystem)
    (pline : U8String) (len : Nat) (st st' : DriverState) (h : related M0 st st') :
    relatedResult M0
      (match processFontOptions fs pline len paramMap st.distillerParams st.calls with
        | .error e => .error e
        | .ok r => .ok { st with distillerParams := r.2.1, calls := r.2.2 })
      (match processFontOptions fs pline len paramMap st'.distillerParams st'.calls with
        | .error e => .error e
        | .ok r => .ok { st' with distillerParams := r.2.1, calls := r.2.2 }) := by
  unfold processFontOptions
  dsimp only
  by_cases hp : pline.getD 1 NUL = 'p'
  · rw [if_pos hp, if_pos hp]
    obtain ⟨hout, hobs, heP, A, hA, habs⟩ := h
    rw [hA, pushPathParam_keeps]
    cases pushPathParam fs pline len 2 paramMap st'.distillerParams with
    | error e => trivial
    | ok x => exact ⟨hout, hobs, heP, A, rfl, habs⟩
  · rw [if_neg hp, if_neg hp]
    by_cases hr : pline.getD 1 NUL = 'r'
    · rw [if_pos hr, if_pos hr]
      exact related_flush_cleared M0 st st' h _ (fun _ => rfl)
    · rw [if_neg hr, if_neg hr]
      by_cases ha : pline.getD 1 NUL = 'a'
      · rw [if_pos ha, if_pos ha]
        cases getFileNames fs (pline.drop 2) [] with
        | error e => trivial
        | ok r => exact related_flush_cleared M0 st st' h _ (fun _ => rfl)
      · rw [if_neg ha, if_neg ha]
        by_cases hf : pline.getD 1 NUL = 'f'
        · rw [if_pos hf, if_pos hf]
          obtain ⟨hout, hobs, heP, A, hA, habs⟩ := h
          have hstep : ∀ cs : List EngineCall,
              engineParams M0 (cs ++ [EngineCall.getFontNames (pline.drop 2)]) =
                engineParams M0 cs := by
            intro cs
            rw [engineParams_append]
            rfl
          have hobs' : ∀ cs : List EngineCall,
              observations M0 (cs ++ [EngineCall.getFontNames (pline.drop 2)]) =
                observations M0 cs := by
            intro cs
            rw [observations_append]
            simp [observations]
          refine ⟨hout, ?_, ?_, A, hA, ?_⟩
          · show observations M0 (st.calls ++ _) = observations M0 (st'.calls ++ _)
            rw [hobs', hobs', hobs]
          · show engineParams M0 (st.calls ++ _) = engineParams M0 (st'.calls ++ _)
            rw [hstep, hstep, heP]
          · show engineParams (engineParams M0 (st.calls ++ _)) (flushCalls A) =
              engineParams M0 (st.calls ++ _)
            rw [hstep, habs]
        · rw [if_neg hf, if_neg hf]
          exact h

theorem relatedResult_dispatchDirective (M0 : EngineParams) (fs : FileSystem)
    (pline : U8String) (len : Nat) (st st' : DriverState) (h : related M0 st st') :
    relatedResult M0 (dispatchDirective fs paramMap pline len st)
      (dispatchDirective fs paramMap pline len st') := by
  unfold dispatchDirective
  dsimp only
  by_cases hd : pline.headD NUL = 'd'
  · rw [if_pos hd, if_pos hd]
    obtain ⟨hout, hobs, heP, A, hA, habs⟩ := h
    rw [hA, processDistillOptions_keeps]
    exact ⟨hout, hobs, heP, A, rfl, habs⟩
  · rw [if_neg hd, if_neg hd]
    by_cases hf : pline.headD NUL = 'f'
    · rw [if_pos hf, if_pos hf]
      exact relatedResult_processFontOptions M0 fs pline len st st' h
    · rw [if_neg hf, if_neg hf]
      by_cases hi : pline.headD NUL = 'i'
      · rw [if_pos hi, if_pos hi]
        obtain ⟨hout, hobs, heP, A, hA, habs⟩ := h
        rw [hA, processExtraOptions_keeps]
        exact relatedResult_of_except M0 st st' A hout hobs heP habs
          (processExtraOptions fs pline len paramMap st'.distillerParams)
      · rw [if_neg hi, if_neg hi]
        by_cases hJ : pline.headD NUL = 'J'
        · rw [if_pos hJ, if_pos hJ]
          obtain ⟨hout, hobs, heP, A, hA, habs⟩ := h
          rw [hA, processPrologEpilogOptions_keeps]
          exact relatedResult_of_except M0 st st' A hout hobs heP habs
            (processPrologEpilogOptions fs pline len paramMap st'.distillerParams)
        · rw [if_neg hJ, if_neg hJ]
          by_cases hP : pline.headD NUL = 'P'
          · rw [if_pos hP, if_pos hP]
            obtain ⟨hout, hobs, heP, A, hA, habs⟩ := h
            rw [hA, pushPathParam_keeps]
            exact relatedResult_of_except M0 st st' A hout hobs heP habs
              (pushPathParam fs pline len 2 paramMap st'.distillerParams)
          · rw [if_neg hP, if_neg hP]
            by_cases ho : pline.headD NUL = 'o'
            · rw [if_pos ho, if_pos ho]
              obtain ⟨_, hobs, heP, A, hA, habs⟩ := h
              exact ⟨rfl, hobs, heP, A, hA, habs⟩
            · rw [if_neg ho, if_neg ho]
              exact h

theorem relatedResult_mainLine (M0 : EngineParams) (fs : FileSystem) (line : U8String)
    (st st' : DriverState) (h : related M0 st st') :
    relatedResult M0 (mainLine fs paramMap line st) (mainLineClearing fs paramMap line st') := by
  unfold mainLine mainLineClearing
  by_cases h0 : line = []
  · rw [if_pos h0, if_pos h0]
    exact h
  · rw [if_neg h0, if_neg h0]
    by_cases hd : 1 < line.length ∧ line.headD NUL = '-'
    · rw [if_pos hd, if_pos hd]
      exact relatedResult_dispatchDirective M0 fs _ _ st st' h
    · rw [if_neg hd, if_neg hd]
      exact related_convert M0 st st' line h

theorem related_mainLoop (M0 : EngineParams) (fs : FileSystem) (argFile : List U8String)
    (st st' : DriverState) (h : related M0 st st') :
    related M0 (mainLoop fs paramMap argFile st).1 (mainLoopClearing fs paramMap argFile st').1 ∧
      (mainLoop fs paramMap argFile st).2 = (mainLoopClearing fs paramMap argFile st').2 := by
  induction argFile generalizing st st' with
  | nil => exact ⟨h, rfl⟩
  | cons line rest ih =>
    unfold mainLoop mainLoopClearing
    by_cases hlen : 1024 ≤ line.length
    · rw [if_pos hlen, if_pos hlen]
      exact ⟨h, rfl⟩
    · rw [if_neg hlen, if_neg hlen]
      have hline := relatedResult_mainLine M0 fs line st st' h
      cases h1 : mainLine fs paramMap line st with
      | error e =>
        cases h2 : mainLineClearing fs paramMap line st' with
        | error e' => exact ⟨h, rfl⟩
        | ok s' =>
          rw [h1, h2] at hline
          exact hline.elim
      | ok s =>
        cases h2 : mainLineClearing fs paramMap line st' with
        | error e' =>
          rw [h1, h2] at hline
          exact hline.elim
        | ok s' =>
          rw [h1, h2] at hline
          exact ih s s' hline

theorem related_initialState (M0 : EngineParams) : related M0 initialState initialState :=
  ⟨rfl, rfl, rfl, [], rfl, rfl⟩

/-- C23. With the engine's parameters modelled as a key-to-value map that `setParameter`
updates (last write wins) and that font actions and conversions do not change, for every
argument file, file system and initial parameter map: the `distill`, `addFonts` and
`removeFont` calls of `main`, each with the parameter map at the moment of the call, are
the same as those of the driver that clears the accumulator after the flush of a
conversion; the two runs also end with the same exit code. -/
theorem runMain_observations_eq_clearing (fs : FileSystem) (argFile : List U8String)
    (M0 : EngineParams) :
    observations M0 (runMain fs argFile).1.calls =
        observations M0 (runMainClearing fs argFile).1.calls ∧
      (runMain fs argFile).2 = (runMainClearing fs argFile).2 := by
  have h := related_mainLoop M0 fs argFile initialState initialState (related_initialState M0)
  exact ⟨h.1.2.1, h.2⟩

end MakoDistillerCmd
